import Mathlib

/-!
Verification development for the Scrabble-style crossword generator
(`scrabble_crossword.py`).

The engine is shallowly embedded:

* a board is a total function `Nat → Nat → Char` (the Python code keeps an
  `N × N` list of lists of single characters, `' '` marking an empty cell);
* words and perpendicular words are `List Char` (Python strings);
* the dictionary (`Trie`) is modelled by the only part the program ever
  consults, its `all_words` set, kept as the list of uppercased inserted
  words;
* Python's `str.upper()` acts per character exactly as `Char.toUpper` on
  the basic-latin range handled by the program;
* the wall clock consulted by the solver's timeout test and the
  `random.random()` tie-breaks in the solver's candidate sort are modelled
  by oracles (`clock : Nat → Nat`, reading `k` being the elapsed time at
  the `k`-th timeout check, and `rank : Nat → _ → _`, the candidate order
  produced by the randomized sort at the `k`-th solver call); theorems
  quantify over all oracles, hence over every realizable run.
-/

namespace Scrabble

/-- Placement orientation: `'across'` or `'down'` in the Python source. -/
inductive Dir where
  | across
  | down
deriving DecidableEq, Repr

/-- The board: the Python `self.grid` list of lists, as a total function.
Cells outside `[0,N)` are never consulted by the `Nat`-indexed embedding. -/
def Grid := Nat → Nat → Char

/-- A word, i.e. a Python string, as its list of characters. -/
abbrev Word := List Char

/-- The fresh board every cell of which holds `' '`
(`[[' ' for _ in range(grid_size)] for _ in range(grid_size)]`). -/
def emptyGrid : Grid := fun _ _ => ' '

/-- Write one cell (`self.grid[r][c] = ch`). -/
def setCell (g : Grid) (r c : Nat) (ch : Char) : Grid :=
  fun r' c' => if r' = r ∧ c' = c then ch else g r' c'

/-- The cell covered by letter index `i` of a placement starting at
`(row, col)`: `(row, col + i)` across, `(row + i, col)` down. -/
def cellOf (row col : Nat) (dir : Dir) (i : Nat) : Nat × Nat :=
  match dir with
  | .across => (row, col + i)
  | .down => (row + i, col)

/-- Scan from cell `n - 1` backwards along the line while cells are
non-empty, returning the letters met in board order (the Python
`while r >= 0 and self.grid[r][col] != ' ': letters.insert(0, ...); r -= 1`
loop; `line` is the board restricted to the scanned line). -/
def scanBack (line : Nat → Char) : Nat → List Char
  | 0 => []
  | n + 1 => if line n ≠ ' ' then scanBack line n ++ [line n] else []

/-- Scan from cell `r` forwards while cells are non-empty; the `fuel`
argument encodes the remaining distance to the board edge, so that calling
with `fuel = N - r` realizes the Python guard `while r < self.grid_size`
(the loop `while r < self.grid_size and self.grid[r][col] != ' '`). -/
def scanFwd (line : Nat → Char) : Nat → Nat → List Char
  | _, 0 => []
  | r, fuel + 1 => if line r ≠ ' ' then line r :: scanFwd line (r + 1) fuel else []

/-- `build_perpendicular_word(row, col, main_direction)`: the contiguous
non-empty run orthogonal to the placement axis through `(row, col)`, with
the placeholder `'?'` at the scanned position itself. -/
def build_perpendicular_word (N : Nat) (g : Grid) (row col : Nat) (dir : Dir) : List Char :=
  match dir with
  | .across =>
      scanBack (fun r => g r col) row ++ ['?'] ++
        scanFwd (fun r => g r col) (row + 1) (N - (row + 1))
  | .down =>
      scanBack (fun c => g row c) col ++ ['?'] ++
        scanFwd (fun c => g row c) (col + 1) (N - (col + 1))

/-- `Trie.contains`: the trie is only ever consulted through its
`all_words` set, so the dictionary is the list of (already uppercased)
inserted words; `contains` uppercases its query and tests membership. -/
def dictContains (dict : List Word) (w : Word) : Bool :=
  dict.contains (w.map Char.toUpper)

/-- The per-letter body of the validator loop
(`for i, char in enumerate(word)` in `can_place_word_scrabble`): a filled
cell must already hold this letter; an empty cell's perpendicular word,
with the placeholder substituted by this letter, must have length `≤ 1` or
be in the dictionary. -/
def cellCheck (N : Nat) (g : Grid) (dict : List Word) (row col : Nat) (dir : Dir)
    (i : Nat) (ch : Char) : Bool :=
  let rc := cellOf row col dir i
  let cur := g rc.1 rc.2
  if cur ≠ ' ' then cur = ch
  else
    let pw := (build_perpendicular_word N g rc.1 rc.2 dir).map
      (fun x => if x = '?' then ch else x)
    decide (pw.length ≤ 1) || dictContains dict pw

/-- The end-isolation checks of `can_place_word_scrabble`: the cell just
before the start and just after the end along the placement axis must be
empty or off-board. -/
def boundaryOk (N : Nat) (g : Grid) (row col : Nat) (len : Nat) (dir : Dir) : Bool :=
  match dir with
  | .across =>
      (decide (col = 0) || (g row (col - 1) = ' ')) &&
      (decide (N ≤ col + len) || (g row (col + len) = ' '))
  | .down =>
      (decide (row = 0) || (g (row - 1) col = ' ')) &&
      (decide (N ≤ row + len) || (g (row + len) col = ' '))

/-- `can_place_word_scrabble(word, row, col, direction)`: uppercase the
word, check the span fits (`col + len(word) > grid_size` rejects),
run the per-letter conflict / perpendicular-word loop, then the
end-isolation boundary checks.  The Python early `return False`s make the
function the conjunction of the three stages. -/
def can_place_word_scrabble (N : Nat) (g : Grid) (dict : List Word)
    (word : Word) (row col : Nat) (dir : Dir) : Bool :=
  let w := word.map Char.toUpper
  let fits : Bool :=
    match dir with
    | .across => decide (col + w.length ≤ N)
    | .down => decide (row + w.length ≤ N)
  fits &&
    ((List.range w.length).all fun i => cellCheck N g dict row col dir i (w.getD i ' ')) &&
    boundaryOk N g row col w.length dir

/-- One placement record: `(word, row, col, direction)` as appended to
`self.placed_words`. -/
abbrev Placement := Word × Nat × Nat × Dir

/-- Write the word's letters onto the grid
(`for i, char in enumerate(word): self.grid[...] = char`). -/
def writeWord (g : Grid) : Word → Nat → Nat → Dir → Grid
  | [], _, _, _ => g
  | ch :: rest, row, col, dir =>
      match dir with
      | .across => writeWord (setCell g row col ch) rest row (col + 1) .across
      | .down => writeWord (setCell g (row) col ch) rest (row + 1) col .down

/-- The engine's mutable state: the board and the ordered placement log. -/
structure SearchState where
  grid : Grid
  placed : List Placement

/-- The freshly constructed state: empty grid, empty `placed_words`. -/
def initState : SearchState := { grid := emptyGrid, placed := [] }

/-- `place_word(word, row, col, direction)`: uppercase, write the letters,
append the placement record. -/
def place_word (s : SearchState) (word : Word) (row col : Nat) (dir : Dir) : SearchState :=
  let w := word.map Char.toUpper
  { grid := writeWord s.grid w row col dir
    placed := s.placed ++ [(w, row, col, dir)] }

/-- The four orthogonal neighbor offsets of
`has_connection_to_existing` (`[(-1, 0), (1, 0), (0, -1), (0, 1)]`). -/
def orthDirs : List (Int × Int) := [(-1, 0), (1, 0), (0, -1), (0, 1)]

/-- `has_connection_to_existing(word, row, col, direction)`: true when no
word is placed yet; otherwise some letter position either already holds
this exact letter or has an in-board orthogonal neighbor that is occupied.
The Python early `return True`s make the loop an existential. -/
def has_connection_to_existing (N : Nat) (g : Grid) (placed : List Placement)
    (word : Word) (row col : Nat) (dir : Dir) : Bool :=
  if placed.length = 0 then true
  else
    let w := word.map Char.toUpper
    (List.range w.length).any fun i =>
      let rc := cellOf row col dir i
      (g rc.1 rc.2 = w.getD i ' ') ||
        orthDirs.any fun d =>
          let nr : Int := (rc.1 : Int) + d.1
          let nc : Int := (rc.2 : Int) + d.2
          decide (0 ≤ nr ∧ nr < (N : Int) ∧ 0 ≤ nc ∧ nc < (N : Int)) &&
            (g nr.toNat nc.toNat ≠ ' ')

/-- Intersection score of a candidate: the number of letter positions
whose cell already holds the word's letter (the
`if self.grid[...] == word[i]: intersections += 1` loop). -/
def intersections (g : Grid) (w : Word) (row col : Nat) (dir : Dir) : Nat :=
  ((List.range w.length).filter fun i =>
    g (cellOf row col dir i).1 (cellOf row col dir i).2 = w.getD i ' ').length

/-! ### The backtracking solver

`random.shuffle`, the `random.random()` sort tie-break and `time.time()`
are modelled by oracles.  `clock k` is the elapsed wall-clock time
(`time.time() - self.start_time`) observed at the `k`-th timeout check;
`rank k` is the output of
`valid_placements.sort(key=lambda x: (-x[3], random.random()))` at the
`k`-th solver call.  Theorems below hold for every oracle, hence for
every run the Python code can realize. -/

/-- The engine's construction-time data: grid size, the dictionary's
`all_words`, the search word order (`self.words`), and the timeout. -/
structure Engine where
  gridSize : Nat
  dictWords : List Word
  words : List Word
  timeout : Nat

/-- A candidate placement as collected by `_backtrack_solve`:
`(row, col, direction, intersections)`. -/
abbrev Cand := Nat × Nat × Dir × Nat

/-- The candidate enumeration of `_backtrack_solve`: every
`(row, col, direction)` in enumeration order that passes the validator
and the connectivity rule, with its intersection score. -/
def candidates (E : Engine) (s : SearchState) (w : Word) : List Cand :=
  (List.range E.gridSize).flatMap fun row =>
    (List.range E.gridSize).flatMap fun col =>
      ([Dir.across, Dir.down]).filterMap fun dir =>
        if can_place_word_scrabble E.gridSize s.grid E.dictWords w row col dir &&
            has_connection_to_existing E.gridSize s.grid s.placed w row col dir then
          some (row, col, dir, intersections s.grid (w.map Char.toUpper) row col dir)
        else none

/-- The `for row, col, direction, _ in valid_placements:` loop of
`_backtrack_solve`: place the word, recurse through `next`; on success
propagate without undoing, on failure restore the snapshot (functionally,
continue from the entry state `s`) and try the next candidate.  The
second component of the result is the final engine state, the third the
advanced clock index. -/
def tryCands (w : Word) (next : SearchState → Nat → Bool × SearchState × Nat) :
    List Cand → SearchState → Nat → Bool × SearchState × Nat
  | [], s, k => (false, s, k)
  | c :: rest, s, k =>
      let res := next (place_word s w c.1 c.2.1 c.2.2.1) k
      if res.1 then res else tryCands w next rest s res.2.2

/-- `_backtrack_solve(word_index)`: timeout check, terminal check, then
candidate enumeration, oracle-ordered traversal with snapshot/restore.
The structural `fuel` argument bounds the recursion depth; it is called
with `fuel = len(words) - index`, which the recursion maintains, so the
`fuel = 0` branch (which fails like an exhausted candidate list) is never
reached on the call paths the program uses. -/
def solveAux (E : Engine) (clock : Nat → Nat) (rank : Nat → List Cand → List Cand) :
    Nat → Nat → SearchState → Nat → Bool × SearchState × Nat
  | fuel, index, s, k =>
    if E.timeout < clock k then (false, s, k + 1)
    else if E.words.length ≤ index then (true, s, k + 1)
    else
      match fuel with
      | 0 => (false, s, k + 1)
      | fuel' + 1 =>
          let w := E.words.getD index []
          tryCands w (fun s' k' => solveAux E clock rank fuel' (index + 1) s' k')
            (rank k (candidates E s w)) s (k + 1)

/-- `_backtrack_solve(index)` as called by the program. -/
def backtrack_solve (E : Engine) (clock : Nat → Nat) (rank : Nat → List Cand → List Cand)
    (index : Nat) (s : SearchState) (k : Nat) : Bool × SearchState × Nat :=
  solveAux E clock rank (E.words.length - index) index s k

/-- `generate_puzzle()`: record the start time (the clock oracle is
relative to it) and run `_backtrack_solve(0)` on the current state. -/
def generate_puzzle (E : Engine) (clock : Nat → Nat) (rank : Nat → List Cand → List Cand)
    (s : SearchState) : Bool × SearchState × Nat :=
  backtrack_solve E clock rank 0 s 0

/-- Insert `x` into a sorted list before the first element it compares
`le` to: the insertion step of a stable ascending sort. -/
def insertSorted {α : Type} (le : α → α → Bool) (x : α) : List α → List α
  | [] => [x]
  | y :: ys => if le x y then x :: y :: ys else y :: insertSorted le x ys

/-- A stable ascending sort (insertion sort).  Python's `list.sort` /
`sorted` are stable, and any two stable sorts with the same key agree, so
this models them exactly. -/
def sortStable {α : Type} (le : α → α → Bool) : List α → List α
  | [] => []
  | x :: xs => insertSorted le x (sortStable le xs)

/-- `sorted(word_list, key=len, reverse=True)`: stable, descending by
length. -/
def sortDescLen (ws : List Word) : List Word :=
  sortStable (fun a b => decide (b.length ≤ a.length)) ws

/-- Structural worker for `spanEq`; the fuel argument only bounds the
recursion depth and is immaterial whenever it is at least the list's
length, which `spanEq` arranges. -/
def spanEqAux : Nat → List Word → List (List Word)
  | _, [] => []
  | 0, _ :: _ => []
  | fuel + 1, w :: ws =>
      (w :: ws.takeWhile (fun v => v.length == w.length)) ::
        spanEqAux fuel (ws.dropWhile (fun v => v.length == w.length))

/-- `itertools.groupby(self.words, key=len)`: split into maximal runs of
consecutive words of equal length. -/
def spanEq (l : List Word) : List (List Word) := spanEqAux l.length l

/-- Apply the `random.shuffle` oracle to each group in turn and
concatenate (`grouped.extend(group_list)`). -/
def applyShuf (shuf : Nat → List Word → List Word) : Nat → List (List Word) → List Word
  | _, [] => []
  | i, g :: gs => shuf i g ++ applyShuf shuf (i + 1) gs

/-- `_shuffle_same_length_groups`: group the sorted words by length,
shuffle each group (`shuf i` being the permutation `random.shuffle` picks
for the `i`-th group), and concatenate. -/
def shuffle_same_length_groups (shuf : Nat → List Word → List Word) (ws : List Word) :
    List Word :=
  applyShuf shuf 0 (spanEq ws)

/-- The `ScrabbleCrossword` constructor: build the dictionary from the
word list, sort by descending length, shuffle same-length groups, and fix
the 30-second timeout. -/
def mkEngine (word_list : List Word) (gridSize : Nat)
    (shuf : Nat → List Word → List Word) : Engine :=
  { gridSize := gridSize
    dictWords := word_list.map (List.map Char.toUpper)
    words := shuffle_same_length_groups shuf (sortDescLen word_list)
    timeout := 30 }

/-- Replaying a placement log onto a fresh empty board by applying
`place_word` for each recorded tuple in order. -/
def replayState (ps : List Placement) : SearchState :=
  ps.foldl (fun s p => place_word s p.1 p.2.1 p.2.2.1 p.2.2.2) initState

/-- A basic-latin letter, upper or lower case. -/
def isAsciiLetter (c : Char) : Prop := ('A' ≤ c ∧ c ≤ 'Z') ∨ ('a' ≤ c ∧ c ≤ 'z')

/-- The uppercase output invariant: every recorded placement stores an
all-uppercase word, and every non-empty grid cell holds an uppercase
letter. -/
def UpperState (s : SearchState) : Prop :=
  (∀ p ∈ s.placed, ∀ ch ∈ p.1, 'A' ≤ ch ∧ ch ≤ 'Z') ∧
  (∀ r c, s.grid r c ≠ ' ' → 'A' ≤ s.grid r c ∧ s.grid r c ≤ 'Z')

instance decIsAsciiLetter : DecidablePred isAsciiLetter := fun c => by
  unfold isAsciiLetter
  infer_instance

/-! ### Integer-coordinate model of the validator

`can_place_word_scrabble` above indexes the grid with `Nat` coordinates,
which is adequate for every call the program makes (`row`/`col` come from
`range(grid_size)`).  The claims about out-of-range starts need the exact
Python semantics of `self.grid[r][c]` on arbitrary integers: an index in
`[0, N)` is used directly, an index in `[-N, 0)` wraps to `N + i`, and
anything else raises `IndexError`.  The functions below re-translate
`can_place_word_scrabble` (and the scans it calls) over `Int` coordinates,
parameterized by the cell accessor, with `none` playing the role of an
uncaught `IndexError`. -/

/-- Python list indexing into a list of length `N`. -/
def pyIdx (N : Nat) (i : Int) : Option Nat :=
  if 0 ≤ i ∧ i < (N : Int) then some i.toNat
  else if -(N : Int) ≤ i ∧ i < 0 then some (i + N).toNat
  else none

/-- `self.grid[r][c]` with Python's wrapping of negative indices. -/
def pyGet (N : Nat) (g : Grid) (r c : Int) : Option Char := do
  let r' ← pyIdx N r
  let c' ← pyIdx N c
  pure (g r' c')

/-- Grid access that succeeds exactly on cells inside `[0, N) × [0, N)`:
a computation that returns `some` under this accessor consults no cell
outside the board. -/
def strictGet (N : Nat) (g : Grid) (r c : Int) : Option Char :=
  if 0 ≤ r ∧ r < (N : Int) ∧ 0 ≤ c ∧ c < (N : Int) then some (g r.toNat c.toNat)
  else none

/-- `cellOf` over integer start coordinates. -/
def cellOfI (row col : Int) (dir : Dir) (i : Nat) : Int × Int :=
  match dir with
  | .across => (row, col + (i : Int))
  | .down => (row + (i : Int), col)

/-- The `while r >= 0 and ... != ' '` scan of `build_perpendicular_word`
over `Int` positions.  The fuel argument only bounds the iteration count;
the call sites pass more fuel than the loop can consume (the position
strictly decreases towards the `r >= 0` guard), so the function realizes
the Python `while` loop exactly. -/
def scanBackG (line : Int → Option Char) : Nat → Int → Option (List Char)
  | 0, r => if 0 ≤ r then none else some []
  | fuel + 1, r =>
      if 0 ≤ r then
        match line r with
        | none => none
        | some ch =>
            if ch ≠ ' ' then (scanBackG line fuel (r - 1)).map (· ++ [ch]) else some []
      else some []

/-- The `while r < self.grid_size and ... != ' '` scan over `Int`
positions; fuel as in `scanBackG`. -/
def scanFwdG (line : Int → Option Char) (N : Nat) : Nat → Int → Option (List Char)
  | 0, r => if r < (N : Int) then none else some []
  | fuel + 1, r =>
      if r < (N : Int) then
        match line r with
        | none => none
        | some ch =>
            if ch ≠ ' ' then (scanFwdG line N fuel (r + 1)).map (ch :: ·) else some []
      else some []

/-- Enough fuel for the backward scan started at `p - 1`. -/
def scanBackFuel (p : Int) : Nat := p.toNat + 1

/-- Enough fuel for the forward scan started at `p + 1`. -/
def scanFwdFuel (N : Nat) (p : Int) : Nat := N + p.natAbs + 1

/-- `build_perpendicular_word` over `Int` coordinates with an explicit
cell accessor. -/
def build_perpendicular_word_gen (N : Nat) (get : Int → Int → Option Char)
    (row col : Int) (dir : Dir) : Option (List Char) :=
  match dir with
  | .across => do
      let up ← scanBackG (fun r => get r col) (scanBackFuel row) (row - 1)
      let down ← scanFwdG (fun r => get r col) N (scanFwdFuel N row) (row + 1)
      pure (up ++ ['?'] ++ down)
  | .down => do
      let left ← scanBackG (fun c => get row c) (scanBackFuel col) (col - 1)
      let right ← scanFwdG (fun c => get row c) N (scanFwdFuel N col) (col + 1)
      pure (left ++ ['?'] ++ right)

/-- The `for i, char in enumerate(word)` loop of
`can_place_word_scrabble` over `Int` coordinates. -/
def checkCellsGen (N : Nat) (get : Int → Int → Option Char) (dict : List Word)
    (row col : Int) (dir : Dir) : List (Nat × Char) → Option Bool
  | [] => some true
  | (i, ch) :: rest => do
      let cur ← get (cellOfI row col dir i).1 (cellOfI row col dir i).2
      if cur ≠ ' ' ∧ cur ≠ ch then pure false
      else if cur = ' ' then do
        let pw0 ← build_perpendicular_word_gen N get (cellOfI row col dir i).1
          (cellOfI row col dir i).2 dir
        let pw := pw0.map (fun x => if x = '?' then ch else x)
        if pw.length > 1 ∧ ¬dictContains dict pw = true then pure false
        else checkCellsGen N get dict row col dir rest
      else checkCellsGen N get dict row col dir rest

/-- The end-isolation checks of `can_place_word_scrabble` over `Int`
coordinates. -/
def boundaryGen (N : Nat) (get : Int → Int → Option Char) (row col : Int) (len : Nat) :
    Dir → Option Bool
  | .across => do
      let okL ←
        if 0 < col then do
          let ch ← get row (col - 1)
          pure (decide (ch = ' '))
        else pure true
      if okL = false then pure false
      else if col + (len : Int) < (N : Int) then do
        let ch ← get row (col + (len : Int))
        pure (decide (ch = ' '))
      else pure true
  | .down => do
      let okT ←
        if 0 < row then do
          let ch ← get (row - 1) col
          pure (decide (ch = ' '))
        else pure true
      if okT = false then pure false
      else if row + (len : Int) < (N : Int) then do
        let ch ← get (row + (len : Int)) col
        pure (decide (ch = ' '))
      else pure true

/-- `can_place_word_scrabble` over `Int` start coordinates with an
explicit cell accessor: bounds test, per-letter loop, end isolation. -/
def can_place_word_gen (N : Nat) (get : Int → Int → Option Char) (dict : List Word)
    (word : Word) (row col : Int) (dir : Dir) : Option Bool :=
  let w := word.map Char.toUpper
  let fits : Bool :=
    match dir with
    | .across => decide (col + (w.length : Int) ≤ (N : Int))
    | .down => decide (row + (w.length : Int) ≤ (N : Int))
  if fits = false then some false
  else do
    let ok ← checkCellsGen N get dict row col dir w.enum
    if ok = false then pure false
    else boundaryGen N get row col w.length dir

/-! ### The candidate ranker (`find_best_placement`)

`find_best_placement` is not invoked by the main search loop; it ranks
candidates by
`sort(key=lambda x: (-x[3], x[4], random.random()))`, where `x[3]` is the
intersection count and `x[4]` the stored *negated* center distance.  The
per-element `random.random()` draws are modelled by a tag oracle indexed
by the candidate's pre-sort position; the stable ascending sort is
modelled by a stable insertion sort, which agrees with Python's stable
`list.sort` for any total preorder on keys. -/

/-- Lexicographic `≤` on the sort keys
`(-intersections, -distance_to_center, random_tag)`. -/
def keyLe (a b : Int × Int × Nat) : Bool :=
  decide (a.1 < b.1) ||
    (decide (a.1 = b.1) &&
      (decide (a.2.1 < b.2.1) || (decide (a.2.1 = b.2.1) && decide (a.2.2 ≤ b.2.2))))

/-- The Manhattan distance from the word's midpoint to the board center
(`abs(word_center_row - center_row) + abs(word_center_col - center_col)`,
with `center = grid_size // 2` and the midpoint at `col + len(word) // 2`
across, `row + len(word) // 2` down). -/
def manhattan_center_distance (N : Nat) (len : Nat) (row col : Nat) (dir : Dir) : Nat :=
  let center : Int := (N / 2 : Nat)
  let wc : Int × Int :=
    match dir with
    | .across => ((row : Int), (col : Int) + ((len / 2 : Nat) : Int))
    | .down => ((row : Int) + ((len / 2 : Nat) : Int), (col : Int))
  (wc.1 - center).natAbs + (wc.2 - center).natAbs

/-- A connected candidate of `find_best_placement`:
`(row, col, direction, intersections, -distance_to_center)`. -/
abbrev BestCand := Nat × Nat × Dir × Nat × Int

/-- The candidate enumeration of `find_best_placement`: every position
and direction passing the validator and the connectivity rule, with its
intersection count and negated center distance. -/
def connected_placements (N : Nat) (g : Grid) (dict : List Word) (placed : List Placement)
    (word : Word) : List BestCand :=
  (List.range N).flatMap fun row =>
    (List.range N).flatMap fun col =>
      ([Dir.across, Dir.down]).filterMap fun dir =>
        if can_place_word_scrabble N g dict word row col dir &&
            has_connection_to_existing N g placed word row col dir then
          some (row, col, dir, intersections g (word.map Char.toUpper) row col dir,
            -((manhattan_center_distance N (word.map Char.toUpper).length row col dir : Int)))
        else none

/-- `find_best_placement(word)`: collect the connected candidates, sort
them stably by `(-intersections, -distance_to_center, random_tag)`
ascending, and return the first candidate's `(row, col, direction)`;
`None` when no candidate exists. -/
def find_best_placement (N : Nat) (g : Grid) (dict : List Word) (placed : List Placement)
    (tags : Nat → Nat) (word : Word) : Option (Nat × Nat × Dir) :=
  match connected_placements N g dict placed word with
  | [] => none
  | c :: rest =>
      let tagged := ((c :: rest).enum).map fun p => (p.2, tags p.1)
      let sorted := sortStable
        (fun a b => keyLe (-(a.1.2.2.2.1 : Int), a.1.2.2.2.2, a.2)
          (-(b.1.2.2.2.1 : Int), b.1.2.2.2.2, b.2)) tagged
      match sorted with
      | [] => none
      | x :: _ => some (x.1.1, x.1.2.1, x.1.2.2.1)

/-! ### Specification-side predicates

The following predicates are written from the specification's wording, to
be compared with the code-derived functions above. -/

/-- The line orthogonal to the placement axis through `(row, col)`:
vertical (varying row, fixed column) for an across placement, horizontal
for a down placement. -/
def orthLine (g : Grid) (row col : Nat) : Dir → (Nat → Char)
  | .across => fun r => g r col
  | .down => fun c => g row c

/-- The coordinate of `(row, col)` along the orthogonal line. -/
def orthPos (row col : Nat) : Dir → Nat
  | .across => row
  | .down => col

/-- Spec condition 1: every covered cell of the placement is inside
`[0, N)`. -/
def CoveredInBoard (N : Nat) (row col : Nat) (dir : Dir) (len : Nat) : Prop :=
  ∀ i < len, (cellOf row col dir i).1 < N ∧ (cellOf row col dir i).2 < N

/-- Spec condition 2: every covered cell is empty or already holds
exactly the word's letter at that position. -/
def NoConflict (g : Grid) (w : Word) (row col : Nat) (dir : Dir) : Prop :=
  ∀ i < w.length,
    g (cellOf row col dir i).1 (cellOf row col dir i).2 = ' ' ∨
    g (cellOf row col dir i).1 (cellOf row col dir i).2 = w.getD i ' '

/-- Spec condition 3: for every covered cell that is currently empty, the
perpendicular word with the candidate letter substituted for the
placeholder has length 1 or belongs to the dictionary. -/
def PerpValid (N : Nat) (g : Grid) (dict : List Word) (w : Word)
    (row col : Nat) (dir : Dir) : Prop :=
  ∀ i < w.length,
    g (cellOf row col dir i).1 (cellOf row col dir i).2 = ' ' →
      ((build_perpendicular_word N g (cellOf row col dir i).1 (cellOf row col dir i).2 dir).map
          (fun x => if x = '?' then w.getD i ' ' else x)).length = 1 ∨
      dictContains dict
        ((build_perpendicular_word N g (cellOf row col dir i).1 (cellOf row col dir i).2 dir).map
          (fun x => if x = '?' then w.getD i ' ' else x)) = true

/-- Spec condition 4: the cell immediately before the word's start and
immediately after its end, along the placement axis, are each empty or
off-board. -/
def EndIsolated (N : Nat) (g : Grid) (row col : Nat) (len : Nat) : Dir → Prop
  | .across =>
      (col = 0 ∨ g row (col - 1) = ' ') ∧ (N ≤ col + len ∨ g row (col + len) = ' ')
  | .down =>
      (row = 0 ∨ g (row - 1) col = ' ') ∧ (N ≤ row + len ∨ g (row + len) col = ' ')

/-- The conjunction of the four validator conditions, as the specification
states them. -/
def CanPlaceSpec (N : Nat) (g : Grid) (dict : List Word) (word : Word)
    (row col : Nat) (dir : Dir) : Prop :=
  CoveredInBoard N row col dir (word.map Char.toUpper).length ∧
  NoConflict g (word.map Char.toUpper) row col dir ∧
  PerpValid N g dict (word.map Char.toUpper) row col dir ∧
  EndIsolated N g row col (word.map Char.toUpper).length dir

/-- The connectivity rule as the specification states it: no word placed
yet, or some letter position coincides with a cell already holding that
exact letter, or has an occupied in-board orthogonal neighbor. -/
def ConnectsSpec (N : Nat) (g : Grid) (placed : List Placement) (word : Word)
    (row col : Nat) (dir : Dir) : Prop :=
  placed.length = 0 ∨
    ∃ i < (word.map Char.toUpper).length,
      (g (cellOf row col dir i).1 (cellOf row col dir i).2 ≠ ' ' ∧
        g (cellOf row col dir i).1 (cellOf row col dir i).2 =
          (word.map Char.toUpper).getD i ' ') ∨
      ∃ d ∈ orthDirs,
        0 ≤ ((cellOf row col dir i).1 : Int) + d.1 ∧
        ((cellOf row col dir i).1 : Int) + d.1 < (N : Int) ∧
        0 ≤ ((cellOf row col dir i).2 : Int) + d.2 ∧
        ((cellOf row col dir i).2 : Int) + d.2 < (N : Int) ∧
        g (((cellOf row col dir i).1 : Int) + d.1).toNat
          (((cellOf row col dir i).2 : Int) + d.2).toNat ≠ ' '

/-- The perpendicular-word scanner's specification: the result lists, in
board order, a maximal contiguous run `[a, b]` of non-empty cells of the
orthogonal line through the scanned position `p`, with the placeholder at
`p` itself. -/
def PerpSpec (N : Nat) (g : Grid) (row col : Nat) (dir : Dir) (res : List Char) : Prop :=
  ∃ a b : Nat,
    a ≤ orthPos row col dir ∧ orthPos row col dir ≤ b ∧ b < N ∧
    (∀ k, a ≤ k → k < orthPos row col dir → orthLine g row col dir k ≠ ' ') ∧
    (∀ k, orthPos row col dir < k → k ≤ b → orthLine g row col dir k ≠ ' ') ∧
    (a = 0 ∨ orthLine g row col dir (a - 1) = ' ') ∧
    (b = N - 1 ∨ orthLine g row col dir (b + 1) = ' ') ∧
    res = (List.range' a (orthPos row col dir - a)).map (orthLine g row col dir) ++
      ['?'] ++
      (List.range' (orthPos row col dir + 1) (b - orthPos row col dir)).map
        (orthLine g row col dir)

/-! ## Theorems -/

lemma build_perpendicular_word_length_pos (N : Nat) (g : Grid) (row col : Nat) (dir : Dir) :
    0 < (build_perpendicular_word N g row col dir).length := by
  cases dir <;> simp [build_perpendicular_word]

lemma getD_upper_ne_space (word : Word) (hw : ∀ ch ∈ word, Char.toUpper ch ≠ ' ')
    {i : Nat} (hi : i < (word.map Char.toUpper).length) :
    (word.map Char.toUpper).getD i ' ' ≠ ' ' := by
  rw [List.getD_eq_getElem _ _ hi]
  rcases List.mem_map.mp (List.getElem_mem hi) with ⟨ch, hch, heq⟩
  rw [← heq]
  exact hw ch hch

lemma cellCheck_eq_true_iff (N : Nat) (g : Grid) (dict : List Word) (row col : Nat)
    (dir : Dir) (i : Nat) (ch : Char) :
    cellCheck N g dict row col dir i ch = true ↔
      (g (cellOf row col dir i).1 (cellOf row col dir i).2 = ' ' ∨
        g (cellOf row col dir i).1 (cellOf row col dir i).2 = ch) ∧
      (g (cellOf row col dir i).1 (cellOf row col dir i).2 = ' ' →
        ((build_perpendicular_word N g (cellOf row col dir i).1 (cellOf row col dir i).2 dir).map
            (fun x => if x = '?' then ch else x)).length = 1 ∨
        dictContains dict
          ((build_perpendicular_word N g (cellOf row col dir i).1 (cellOf row col dir i).2 dir).map
            (fun x => if x = '?' then ch else x)) = true) := by
  have hlen : 0 < ((build_perpendicular_word N g (cellOf row col dir i).1
      (cellOf row col dir i).2 dir).map (fun x => if x = '?' then ch else x)).length := by
    rw [List.length_map]
    exact build_perpendicular_word_length_pos ..
  by_cases h : g (cellOf row col dir i).1 (cellOf row col dir i).2 = ' '
  · simp only [cellCheck, h, ne_eq, not_true_eq_false, if_false, Bool.or_eq_true,
      decide_eq_true_iff, true_or, true_and, forall_const]
    constructor <;> rintro (h1 | h2)
    · exact Or.inl (by omega)
    · exact Or.inr h2
    · exact Or.inl (by omega)
    · exact Or.inr h2
  · simp only [cellCheck, h, ne_eq, not_false_eq_true, if_true, decide_eq_true_iff,
      false_or, IsEmpty.forall_iff, and_true]

theorem forall_lt_and_split {n : Nat} {A B : Nat → Prop} :
    (∀ i < n, A i ∧ B i) ↔ (∀ i < n, A i) ∧ (∀ i < n, B i) :=
  ⟨fun h => ⟨fun i hi => (h i hi).1, fun i hi => (h i hi).2⟩,
   fun h i hi => ⟨h.1 i hi, h.2 i hi⟩⟩

/-- **C1.** For every word, orientation and in-range start `(row, col)`,
`can_place_word_scrabble` returns `true` iff the four spec conditions hold:
the span fits in `[0, N)`; every covered cell is empty or already holds
the word's letter; for every currently empty covered cell the substituted
perpendicular word has length 1 or is in the dictionary; and the two cells
beyond the word's ends are empty or off-board. -/
theorem can_place_word_scrabble_iff (N : Nat) (g : Grid) (dict : List Word)
    (word : Word) (row col : Nat) (dir : Dir) (hr : row < N) (hc : col < N) :
    can_place_word_scrabble N g dict word row col dir = true ↔
      CanPlaceSpec N g dict word row col dir := by
  have hfits :
      (match dir with
        | .across => decide (col + (word.map Char.toUpper).length ≤ N)
        | .down => decide (row + (word.map Char.toUpper).length ≤ N)) = true ↔
      CoveredInBoard N row col dir (word.map Char.toUpper).length := by
    unfold CoveredInBoard
    cases dir <;> simp only [decide_eq_true_iff, cellOf] <;> constructor <;> intro h
    · exact fun i hi => ⟨hr, by omega⟩
    · rcases Nat.eq_zero_or_pos (word.map Char.toUpper).length with h0 | h0
      · omega
      · have := h ((word.map Char.toUpper).length - 1) (by omega)
        omega
    · exact fun i hi => ⟨by omega, hc⟩
    · rcases Nat.eq_zero_or_pos (word.map Char.toUpper).length with h0 | h0
      · omega
      · have := h ((word.map Char.toUpper).length - 1) (by omega)
        omega
  have hall :
      ((List.range (word.map Char.toUpper).length).all fun i =>
        cellCheck N g dict row col dir i ((word.map Char.toUpper).getD i ' ')) = true ↔
      (NoConflict g (word.map Char.toUpper) row col dir ∧
        PerpValid N g dict (word.map Char.toUpper) row col dir) := by
    rw [List.all_eq_true]
    unfold NoConflict PerpValid
    constructor
    · intro h
      constructor
      · intro i hi
        exact ((cellCheck_eq_true_iff ..).mp (h i (List.mem_range.mpr hi))).1
      · intro i hi hemp
        exact ((cellCheck_eq_true_iff ..).mp (h i (List.mem_range.mpr hi))).2 hemp
    · rintro ⟨h1, h2⟩ i hi
      rw [cellCheck_eq_true_iff]
      exact ⟨h1 i (List.mem_range.mp hi), fun hemp => h2 i (List.mem_range.mp hi) hemp⟩
  have hbnd : boundaryOk N g row col (word.map Char.toUpper).length dir = true ↔
      EndIsolated N g row col (word.map Char.toUpper).length dir := by
    cases dir <;>
      simp only [boundaryOk, EndIsolated, Bool.and_eq_true, Bool.or_eq_true,
        decide_eq_true_iff]
  unfold can_place_word_scrabble CanPlaceSpec
  rw [Bool.and_eq_true, Bool.and_eq_true, hfits, hall, hbnd]
  tauto

/-- Concrete instance discharging the hypotheses of
`can_place_word_scrabble_iff`. -/
theorem can_place_word_scrabble_iff_witness :
    1 < 4 ∧ (can_place_word_scrabble 4 emptyGrid [] ['A', 'B'] 1 1 .across = true ↔
      CanPlaceSpec 4 emptyGrid [] ['A', 'B'] 1 1 .across) :=
  ⟨by decide, can_place_word_scrabble_iff 4 emptyGrid [] ['A', 'B'] 1 1 .across
    (by decide) (by decide)⟩

/-- **C4.** `has_connection_to_existing` returns `true` iff no word is
placed yet, or some letter position of the candidate coincides with a cell
already holding that exact letter, or has an occupied in-board orthogonal
neighbor.  (The word is assumed not to contain the blank cell marker, as
every word of the data model consists of letters.) -/
theorem has_connection_to_existing_iff (N : Nat) (g : Grid) (placed : List Placement)
    (word : Word) (row col : Nat) (dir : Dir)
    (hw : ∀ ch ∈ word, Char.toUpper ch ≠ ' ') :
    has_connection_to_existing N g placed word row col dir = true ↔
      ConnectsSpec N g placed word row col dir := by
  unfold has_connection_to_existing ConnectsSpec
  by_cases hp : placed.length = 0
  · simp [hp]
  · simp only [hp, if_false]
    simp only [List.any_eq_true, List.mem_range, Bool.or_eq_true, Bool.and_eq_true,
      decide_eq_true_iff, ne_eq]
    constructor
    · rintro ⟨i, hi, hcond⟩
      refine Or.inr ⟨i, hi, ?_⟩
      rcases hcond with heq | ⟨d, hd, hcond2⟩
      · exact Or.inl ⟨heq ▸ getD_upper_ne_space word hw hi, heq⟩
      · exact Or.inr ⟨d, hd, by tauto⟩
    · rintro (h0 | ⟨i, hi, hcond⟩)
      · exact h0.elim
      · refine ⟨i, hi, ?_⟩
        rcases hcond with ⟨_, heq⟩ | ⟨d, hd, hcond2⟩
        · exact Or.inl heq
        · exact Or.inr ⟨d, hd, by tauto⟩

/-- Concrete instance discharging the hypothesis of
`has_connection_to_existing_iff`. -/
theorem has_connection_to_existing_iff_witness :
    (∀ ch ∈ (['A', 'B'] : Word), Char.toUpper ch ≠ ' ') ∧
    (has_connection_to_existing 3 (setCell emptyGrid 0 0 'A')
        [(['A'], 0, 0, .across)] ['A', 'B'] 0 0 .across = true ↔
      ConnectsSpec 3 (setCell emptyGrid 0 0 'A')
        [(['A'], 0, 0, .across)] ['A', 'B'] 0 0 .across) :=
  ⟨by decide, has_connection_to_existing_iff 3 (setCell emptyGrid 0 0 'A')
    [(['A'], 0, 0, .across)] ['A', 'B'] 0 0 .across (by decide)⟩

lemma build_perpendicular_word_eq (N : Nat) (g : Grid) (row col : Nat) (dir : Dir) :
    build_perpendicular_word N g row col dir =
      scanBack (orthLine g row col dir) (orthPos row col dir) ++ ['?'] ++
      scanFwd (orthLine g row col dir) (orthPos row col dir + 1)
        (N - (orthPos row col dir + 1)) := by
  cases dir <;> rfl

lemma scanBack_spec (line : Nat → Char) (p : Nat) :
    ∃ a, a ≤ p ∧ (∀ k, a ≤ k → k < p → line k ≠ ' ') ∧
      (a = 0 ∨ line (a - 1) = ' ') ∧
      scanBack line p = (List.range' a (p - a)).map line := by
  induction p with
  | zero => exact ⟨0, le_refl 0, fun k h1 h2 => absurd h2 (by omega), Or.inl rfl, rfl⟩
  | succ q ih =>
    by_cases h : line q = ' '
    · refine ⟨q + 1, le_refl _, fun k h1 h2 => absurd h2 (by omega), Or.inr ?_, ?_⟩
      · simpa using h
      · simp [scanBack, h]
    · rcases ih with ⟨a, ha, hcontig, hbound, hres⟩
      refine ⟨a, by omega, ?_, hbound, ?_⟩
      · intro k h1 h2
        rcases Nat.lt_succ_iff_lt_or_eq.mp h2 with h2' | h2'
        · exact hcontig k h1 h2'
        · exact h2' ▸ h
      · have hrange : List.range' a (q + 1 - a) = List.range' a (q - a) ++ [q] := by
          have h1 : q + 1 - a = 1 + (q - a) := by omega
          have h2 : List.range' (a + 1 * (q - a)) 1 = [q] := by
            have h3 : a + 1 * (q - a) = q := by omega
            rw [h3, List.range'_one]
          rw [h1, ← List.range'_append a (q - a) 1 1, h2]
        simp only [scanBack, h, ne_eq, not_false_eq_true, if_true, hres, hrange,
          List.map_append, List.map_cons, List.map_nil]


lemma scanFwd_spec (line : Nat → Char) :
    ∀ (fuel r : Nat), ∃ m, m ≤ fuel ∧ (∀ k, k < m → line (r + k) ≠ ' ') ∧
      (m = fuel ∨ line (r + m) = ' ') ∧
      scanFwd line r fuel = (List.range' r m).map line := by
  intro fuel
  induction fuel with
  | zero => exact fun r => ⟨0, le_refl 0, fun k h => absurd h (by omega), Or.inl rfl, rfl⟩
  | succ f ih =>
    intro r
    by_cases h : line r = ' '
    · refine ⟨0, by omega, fun k hk => absurd hk (by omega), Or.inr (by simpa using h), ?_⟩
      simp [scanFwd, h]
    · rcases ih (r + 1) with ⟨m, hm, hcontig, hmax, hres⟩
      refine ⟨m + 1, by omega, ?_, ?_, ?_⟩
      · intro k hk
        cases k with
        | zero => simpa using h
        | succ k' =>
          have := hcontig k' (by omega)
          rwa [show r + (k' + 1) = r + 1 + k' by omega]
      · rcases hmax with h1 | h1
        · exact Or.inl (by omega)
        · exact Or.inr (by rwa [show r + (m + 1) = r + 1 + m by omega])
      · simp only [scanFwd, h, ne_eq, not_false_eq_true, if_true, hres,
          List.range'_succ, List.map_cons]

/-- **C5.** `build_perpendicular_word` returns the maximal contiguous
non-empty run of the orthogonal line through the scanned position, in
board order, with exactly one placeholder at the scanned position itself;
and when neither orthogonal neighbor is non-empty the result is exactly
`"?"`.  (The grid is assumed not to contain the placeholder character,
which only ever names a cell whose letter is not yet known.) -/
theorem build_perpendicular_word_correct (N : Nat) (g : Grid) (row col : Nat) (dir : Dir)
    (hr : row < N) (hc : col < N)
    (hq : ∀ r < N, ∀ c < N, g r c ≠ '?') :
    PerpSpec N g row col dir (build_perpendicular_word N g row col dir) ∧
    (build_perpendicular_word N g row col dir).count '?' = 1 ∧
    (((orthPos row col dir = 0 ∨ orthLine g row col dir (orthPos row col dir - 1) = ' ') ∧
      (N ≤ orthPos row col dir + 1 ∨ orthLine g row col dir (orthPos row col dir + 1) = ' ')) →
      build_perpendicular_word N g row col dir = ['?']) := by
  have hp : orthPos row col dir < N := by
    cases dir
    · exact hr
    · exact hc
  have hline : ∀ k, k < N → orthLine g row col dir k ≠ '?' := by
    cases dir
    · exact fun k hk => hq k hk col hc
    · exact fun k hk => hq row hr k hk
  rcases scanBack_spec (orthLine g row col dir) (orthPos row col dir) with
    ⟨a, ha, hcontigU, hboundU, hresU⟩
  rcases scanFwd_spec (orthLine g row col dir) (N - (orthPos row col dir + 1))
    (orthPos row col dir + 1) with ⟨m, hm, hcontigD, hmaxD, hresD⟩
  have hkey := build_perpendicular_word_eq N g row col dir
  refine ⟨⟨a, orthPos row col dir + m, ha, by omega, by omega, hcontigU, ?_, hboundU, ?_, ?_⟩,
    ?_, ?_⟩
  · intro k h1 h2
    have := hcontigD (k - (orthPos row col dir + 1)) (by omega)
    rwa [show orthPos row col dir + 1 + (k - (orthPos row col dir + 1)) = k by omega] at this
  · rcases hmaxD with h1 | h1
    · exact Or.inl (by omega)
    · exact Or.inr (by rwa [show orthPos row col dir + 1 + m = orthPos row col dir + m + 1
        by omega] at h1)
  · rw [hkey, hresU, hresD, show orthPos row col dir + m - orthPos row col dir = m by omega]
  · rw [hkey, hresU, hresD, List.count_append, List.count_append]
    have hz1 : ((List.range' a (orthPos row col dir - a)).map
        (orthLine g row col dir)).count '?' = 0 := by
      rw [List.count_eq_zero]
      intro hmem
      rcases List.mem_map.mp hmem with ⟨k, hk, heq⟩
      rcases List.mem_range'.mp hk with ⟨j, hj, rfl⟩
      exact hline (a + 1 * j) (by omega) heq
    have hz2 : ((List.range' (orthPos row col dir + 1) m).map
        (orthLine g row col dir)).count '?' = 0 := by
      rw [List.count_eq_zero]
      intro hmem
      rcases List.mem_map.mp hmem with ⟨k, hk, heq⟩
      rcases List.mem_range'.mp hk with ⟨j, hj, rfl⟩
      exact hline (orthPos row col dir + 1 + 1 * j) (by omega) heq
    simp [hz1, hz2]
  · rintro ⟨h1, h2⟩
    have e1 : scanBack (orthLine g row col dir) (orthPos row col dir) = [] := by
      rcases h1 with h0 | hsp
      · rw [h0]
        rfl
      · cases hpp : orthPos row col dir with
        | zero => rfl
        | succ q =>
          rw [hpp] at hsp
          simp only [Nat.add_sub_cancel] at hsp
          simp [scanBack, hsp]
    have e2 : scanFwd (orthLine g row col dir) (orthPos row col dir + 1)
        (N - (orthPos row col dir + 1)) = [] := by
      rcases h2 with h0 | hsp
      · rw [show N - (orthPos row col dir + 1) = 0 by omega]
        rfl
      · cases hF : N - (orthPos row col dir + 1) with
        | zero => rfl
        | succ f => simp [scanFwd, hsp]
    rw [hkey, e1, e2]
    rfl

/-- Concrete instance discharging the hypotheses of
`build_perpendicular_word_correct`. -/
theorem build_perpendicular_word_correct_witness :
    (1 < 3 ∧ (∀ r < 3, ∀ c < 3, setCell emptyGrid 0 1 'A' r c ≠ '?')) ∧
    (PerpSpec 3 (setCell emptyGrid 0 1 'A') 1 1 .across
        (build_perpendicular_word 3 (setCell emptyGrid 0 1 'A') 1 1 .across) ∧
      (build_perpendicular_word 3 (setCell emptyGrid 0 1 'A') 1 1 .across).count '?' = 1 ∧
      (((orthPos 1 1 .across = 0 ∨
          orthLine (setCell emptyGrid 0 1 'A') 1 1 .across (orthPos 1 1 .across - 1) = ' ') ∧
        (3 ≤ orthPos 1 1 .across + 1 ∨
          orthLine (setCell emptyGrid 0 1 'A') 1 1 .across (orthPos 1 1 .across + 1) = ' ')) →
        build_perpendicular_word 3 (setCell emptyGrid 0 1 'A') 1 1 .across = ['?'])) :=
  ⟨⟨by decide, by decide⟩,
    build_perpendicular_word_correct 3 (setCell emptyGrid 0 1 'A') 1 1 .across
      (by decide) (by decide) (by decide)⟩

/-! ### Character case lemmas -/

lemma toUpper_toNat_lower {c : Char} (h : 97 ≤ c.toNat ∧ c.toNat ≤ 122) :
    c.toUpper.toNat = c.toNat - 32 := by
  unfold Char.toUpper
  rw [if_pos h]
  have hv : (c.toNat - 32).isValidChar := Or.inl (by omega)
  rw [Char.ofNat, dif_pos hv]
  show (UInt32.ofNat' _ _).toNat = _
  simp [UInt32.ofNat', UInt32.toNat, BitVec.toNat_ofNatLt]

lemma toUpper_eq_self {c : Char} (h : ¬(97 ≤ c.toNat ∧ c.toNat ≤ 122)) :
    c.toUpper = c := by
  unfold Char.toUpper
  rw [if_neg h]

lemma toUpper_toUpper (c : Char) : c.toUpper.toUpper = c.toUpper := by
  by_cases h : 97 ≤ c.toNat ∧ c.toNat ≤ 122
  · have ht := toUpper_toNat_lower h
    exact toUpper_eq_self (by omega)
  · rw [toUpper_eq_self h, toUpper_eq_self h]

lemma map_toUpper_idem (w : Word) :
    (w.map Char.toUpper).map Char.toUpper = w.map Char.toUpper := by
  rw [List.map_map]
  exact List.map_congr_left fun a _ => toUpper_toUpper a

lemma toUpper_of_letter {c : Char} (h : isAsciiLetter c) :
    'A' ≤ c.toUpper ∧ c.toUpper ≤ 'Z' := by
  rcases h with h | h
  · have hn : 65 ≤ c.toNat ∧ c.toNat ≤ 90 := ⟨h.1, h.2⟩
    rw [toUpper_eq_self (by omega)]
    exact h
  · have hn : 97 ≤ c.toNat ∧ c.toNat ≤ 122 := ⟨h.1, h.2⟩
    have ht := toUpper_toNat_lower hn
    constructor
    · show (65 : Nat) ≤ c.toUpper.toNat
      omega
    · show c.toUpper.toNat ≤ (90 : Nat)
      omega

/-! ### Solver lemmas -/

lemma tryCands_fail (w : Word) (next : SearchState → Nat → Bool × SearchState × Nat) :
    ∀ (cands : List Cand) (s : SearchState) (k : Nat),
      (tryCands w next cands s k).1 = false → (tryCands w next cands s k).2.1 = s := by
  intro cands
  induction cands with
  | nil => intro s k _; rfl
  | cons c rest ih =>
    intro s k h
    simp only [tryCands] at h ⊢
    by_cases hb : (next (place_word s w c.1 c.2.1 c.2.2.1) k).1 = true
    · rw [if_pos hb] at h
      rw [hb] at h
      exact absurd h (by simp)
    · rw [if_neg hb] at h ⊢
      exact ih s _ h

lemma solveAux_fail_unchanged (E : Engine) (clock : Nat → Nat)
    (rank : Nat → List Cand → List Cand) (fuel index : Nat) (s : SearchState) (k : Nat)
    (h : (solveAux E clock rank fuel index s k).1 = false) :
    (solveAux E clock rank fuel index s k).2.1 = s := by
  unfold solveAux at h ⊢
  by_cases h1 : E.timeout < clock k
  · rw [if_pos h1]
  · rw [if_neg h1] at h ⊢
    by_cases h2 : E.words.length ≤ index
    · rw [if_pos h2] at h
      exact absurd h (by simp)
    · rw [if_neg h2] at h ⊢
      cases fuel with
      | zero => rfl
      | succ fuel' => exact tryCands_fail _ _ _ s _ h

lemma tryCands_preserves (w : Word) (next : SearchState → Nat → Bool × SearchState × Nat)
    (P : SearchState → Prop)
    (hw : ∀ s r c d, P s → P (place_word s w r c d))
    (hnext : ∀ s k, P s → P ((next s k).2.1)) :
    ∀ (cands : List Cand) (s : SearchState) (k : Nat),
      P s → P ((tryCands w next cands s k).2.1) := by
  intro cands
  induction cands with
  | nil => intro s k hP; exact hP
  | cons c rest ih =>
    intro s k hP
    simp only [tryCands]
    by_cases hb : (next (place_word s w c.1 c.2.1 c.2.2.1) k).1 = true
    · rw [if_pos hb]
      exact hnext _ _ (hw s _ _ _ hP)
    · rw [if_neg hb]
      exact ih s _ hP

lemma solveAux_preserves (E : Engine) (clock : Nat → Nat)
    (rank : Nat → List Cand → List Cand) (P : SearchState → Prop)
    (hplace : ∀ s i r c d, i < E.words.length → P s →
      P (place_word s (E.words.getD i []) r c d)) :
    ∀ (fuel index : Nat) (s : SearchState) (k : Nat),
      P s → P ((solveAux E clock rank fuel index s k).2.1) := by
  intro fuel
  induction fuel with
  | zero =>
    intro index s k hP
    unfold solveAux
    by_cases h1 : E.timeout < clock k
    · rw [if_pos h1]; exact hP
    · rw [if_neg h1]
      by_cases h2 : E.words.length ≤ index
      · rw [if_pos h2]; exact hP
      · rw [if_neg h2]; exact hP
  | succ fuel ih =>
    intro index s k hP
    unfold solveAux
    by_cases h1 : E.timeout < clock k
    · rw [if_pos h1]; exact hP
    · rw [if_neg h1]
      by_cases h2 : E.words.length ≤ index
      · rw [if_pos h2]; exact hP
      · rw [if_neg h2]
        exact tryCands_preserves _ _ P
          (fun s' r c d hP' => hplace s' index r c d (by omega) hP')
          (fun s' k' hP' => ih (index + 1) s' k' hP') _ s _ hP

/-- **C3.** Whenever the recursive solver step returns `false` — through
the timeout check, an empty candidate list, or exhausting every candidate
— the board grid and the placement log at the moment of return equal
their values at entry. -/
theorem backtrack_solve_fail_unchanged (E : Engine) (clock : Nat → Nat)
    (rank : Nat → List Cand → List Cand) (index : Nat) (s : SearchState) (k : Nat)
    (h : (backtrack_solve E clock rank index s k).1 = false) :
    (backtrack_solve E clock rank index s k).2.1.grid = s.grid ∧
    (backtrack_solve E clock rank index s k).2.1.placed = s.placed := by
  have := solveAux_fail_unchanged E clock rank (E.words.length - index) index s k h
  unfold backtrack_solve
  rw [this]
  exact ⟨rfl, rfl⟩

/-- Concrete instance discharging the hypothesis of
`backtrack_solve_fail_unchanged`: a single word that cannot fit in a
1-cell grid makes the solver fail with the state unchanged. -/
theorem backtrack_solve_fail_unchanged_witness :
    (backtrack_solve (mkEngine [['A', 'A']] 1 (fun _ g => g)) (fun _ => 0) (fun _ l => l)
        0 initState 0).1 = false ∧
    ((backtrack_solve (mkEngine [['A', 'A']] 1 (fun _ g => g)) (fun _ => 0) (fun _ l => l)
        0 initState 0).2.1.grid = initState.grid ∧
      (backtrack_solve (mkEngine [['A', 'A']] 1 (fun _ g => g)) (fun _ => 0) (fun _ l => l)
        0 initState 0).2.1.placed = initState.placed) :=
  ⟨by decide, backtrack_solve_fail_unchanged (mkEngine [['A', 'A']] 1 (fun _ g => g))
    (fun _ => 0) (fun _ l => l) 0 initState 0 (by decide)⟩

lemma replay_place (s : SearchState) (w : Word) (r c : Nat) (d : Dir)
    (hP : (replayState s.placed).grid = s.grid) :
    (replayState ((place_word s w r c d).placed)).grid = (place_word s w r c d).grid := by
  have hfold : replayState (s.placed ++ [(w.map Char.toUpper, r, c, d)]) =
      place_word (replayState s.placed) (w.map Char.toUpper) r c d := by
    unfold replayState
    rw [List.foldl_append]
    rfl
  show (replayState (s.placed ++ [(w.map Char.toUpper, r, c, d)])).grid = _
  rw [hfold]
  show writeWord (replayState s.placed).grid ((w.map Char.toUpper).map Char.toUpper) r c d =
    (place_word s w r c d).grid
  rw [map_toUpper_idem, hP]
  rfl

/-- **C2.** Replaying the final placement log, in recorded order, onto a
fresh empty board with `place_word` reproduces the final board grid
exactly, for every successful `generate_puzzle` run started from the
fresh state. -/
theorem generate_puzzle_replay (E : Engine) (clock : Nat → Nat)
    (rank : Nat → List Cand → List Cand)
    (_h : (generate_puzzle E clock rank initState).1 = true) :
    (replayState ((generate_puzzle E clock rank initState).2.1).placed).grid =
      ((generate_puzzle E clock rank initState).2.1).grid := by
  exact solveAux_preserves E clock rank
    (fun s => (replayState s.placed).grid = s.grid)
    (fun s i r c d _ hP => replay_place s _ r c d hP)
    (E.words.length - 0) 0 initState 0 rfl

/-- Concrete instance discharging the hypothesis of
`generate_puzzle_replay`: one word on a 1-cell grid is placed
successfully. -/
theorem generate_puzzle_replay_witness :
    (generate_puzzle (mkEngine [['A']] 1 (fun _ g => g)) (fun _ => 0) (fun _ l => l)
        initState).1 = true ∧
    (replayState ((generate_puzzle (mkEngine [['A']] 1 (fun _ g => g)) (fun _ => 0)
        (fun _ l => l) initState).2.1).placed).grid =
      ((generate_puzzle (mkEngine [['A']] 1 (fun _ g => g)) (fun _ => 0)
        (fun _ l => l) initState).2.1).grid :=
  ⟨by decide, generate_puzzle_replay (mkEngine [['A']] 1 (fun _ g => g)) (fun _ => 0)
    (fun _ l => l) (by decide)⟩

/-- **C8.** With a configured timeout of 0 and a wall clock that has
advanced past the start time, `generate_puzzle` returns failure — a
value, not an exception — and leaves the board and the placement log
exactly as they were (in particular non-corrupted). -/
theorem generate_puzzle_timeout_zero (E : Engine) (clock : Nat → Nat)
    (rank : Nat → List Cand → List Cand) (s : SearchState)
    (htz : E.timeout = 0) (hclk : 0 < clock 0) :
    (generate_puzzle E clock rank s).1 = false ∧
    (generate_puzzle E clock rank s).2.1 = s := by
  unfold generate_puzzle backtrack_solve solveAux
  rw [if_pos (show E.timeout < clock 0 by omega)]
  exact ⟨rfl, rfl⟩

/-- Concrete instance discharging the hypotheses of
`generate_puzzle_timeout_zero`. -/
theorem generate_puzzle_timeout_zero_witness :
    (({ gridSize := 2, dictWords := [], words := [['A']], timeout := 0 } : Engine).timeout = 0 ∧
      0 < (fun _ : Nat => 1) 0) ∧
    ((generate_puzzle { gridSize := 2, dictWords := [], words := [['A']], timeout := 0 }
        (fun _ => 1) (fun _ l => l) initState).1 = false ∧
      (generate_puzzle { gridSize := 2, dictWords := [], words := [['A']], timeout := 0 }
        (fun _ => 1) (fun _ l => l) initState).2.1 = initState) :=
  ⟨⟨rfl, by decide⟩, generate_puzzle_timeout_zero
    { gridSize := 2, dictWords := [], words := [['A']], timeout := 0 }
    (fun _ => 1) (fun _ l => l) initState rfl (by decide)⟩

/-! ### Constructor lemmas: lengths and membership through sorting,
grouping and shuffling -/

lemma insertSorted_length {α : Type} (le : α → α → Bool) (x : α) :
    ∀ l : List α, (insertSorted le x l).length = l.length + 1 := by
  intro l
  induction l with
  | nil => rfl
  | cons y ys ih =>
    simp only [insertSorted]
    by_cases h : le x y
    · rw [if_pos h]; rfl
    · rw [if_neg h]
      simp [ih]

lemma sortStable_length {α : Type} (le : α → α → Bool) :
    ∀ l : List α, (sortStable le l).length = l.length := by
  intro l
  induction l with
  | nil => rfl
  | cons x xs ih =>
    simp only [sortStable]
    rw [insertSorted_length, ih]
    rfl

lemma insertSorted_mem {α : Type} (le : α → α → Bool) (x y : α) :
    ∀ l : List α, y ∈ insertSorted le x l → y = x ∨ y ∈ l := by
  intro l
  induction l with
  | nil =>
    intro h
    simp only [insertSorted] at h
    exact Or.inl (by simpa using h)
  | cons z zs ih =>
    intro h
    simp only [insertSorted] at h
    by_cases hle : le x z
    · rw [if_pos hle] at h
      rcases List.mem_cons.mp h with h | h
      · exact Or.inl h
      · exact Or.inr h
    · rw [if_neg hle] at h
      rcases List.mem_cons.mp h with h | h
      · exact Or.inr (h ▸ List.mem_cons_self z zs)
      · rcases ih h with h | h
        · exact Or.inl h
        · exact Or.inr (List.mem_cons_of_mem z h)

lemma sortStable_mem {α : Type} (le : α → α → Bool) (y : α) :
    ∀ l : List α, y ∈ sortStable le l → y ∈ l := by
  intro l
  induction l with
  | nil =>
    intro h
    simp only [sortStable] at h
    exact absurd h (List.not_mem_nil y)
  | cons x xs ih =>
    intro h
    rcases insertSorted_mem le x y _ h with h | h
    · exact h ▸ List.mem_cons_self x xs
    · exact List.mem_cons_of_mem x (ih h)

lemma spanEqAux_sum : ∀ (fuel : Nat) (l : List Word), l.length ≤ fuel →
    ((spanEqAux fuel l).map List.length).sum = l.length := by
  intro fuel
  induction fuel with
  | zero =>
    intro l h
    cases l with
    | nil => rfl
    | cons w ws => simp at h
  | succ fuel ih =>
    intro l h
    cases l with
    | nil => rfl
    | cons w ws =>
      simp only [spanEqAux, List.map_cons, List.sum_cons, List.length_cons]
      have hsplit : (ws.takeWhile (fun v => v.length == w.length)).length +
          (ws.dropWhile (fun v => v.length == w.length)).length = ws.length := by
        rw [← List.length_append, List.takeWhile_append_dropWhile]
      have hdrop : (ws.dropWhile (fun v => v.length == w.length)).length ≤ fuel := by
        simp only [List.length_cons] at h
        omega
      rw [ih _ hdrop]
      omega

lemma spanEqAux_mem : ∀ (fuel : Nat) (l : List Word) (g : List Word) (w : Word),
    g ∈ spanEqAux fuel l → w ∈ g → w ∈ l := by
  intro fuel
  induction fuel with
  | zero =>
    intro l g w hg _
    cases l with
    | nil =>
      rw [show spanEqAux 0 ([] : List Word) = [] from rfl] at hg
      exact absurd hg (List.not_mem_nil g)
    | cons w' ws =>
      rw [show spanEqAux 0 (w' :: ws) = [] from rfl] at hg
      exact absurd hg (List.not_mem_nil g)
  | succ fuel ih =>
    intro l g w hg hw
    cases l with
    | nil =>
      rw [show spanEqAux (fuel + 1) ([] : List Word) = [] from rfl] at hg
      exact absurd hg (List.not_mem_nil g)
    | cons w' ws =>
      simp only [spanEqAux, List.mem_cons] at hg
      rcases hg with hg | hg
      · subst hg
        rcases List.mem_cons.mp hw with h | h
        · exact h ▸ List.mem_cons_self w' ws
        · exact List.mem_cons_of_mem w'
            ((List.takeWhile_sublist _).subset h)
      · exact List.mem_cons_of_mem w'
          ((List.dropWhile_sublist _).subset (ih _ g w hg hw))

lemma applyShuf_length (shuf : Nat → List Word → List Word)
    (hshuf : ∀ i g, (shuf i g).length = g.length) :
    ∀ (i : Nat) (gs : List (List Word)),
      (applyShuf shuf i gs).length = (gs.map List.length).sum := by
  intro i gs
  induction gs generalizing i with
  | nil => rfl
  | cons g gs ih =>
    simp only [applyShuf, List.length_append, List.map_cons, List.sum_cons, hshuf, ih]

lemma applyShuf_mem (shuf : Nat → List Word → List Word)
    (hshuf : ∀ i g w, w ∈ shuf i g → w ∈ g) :
    ∀ (i : Nat) (gs : List (List Word)) (w : Word),
      w ∈ applyShuf shuf i gs → ∃ g ∈ gs, w ∈ g := by
  intro i gs
  induction gs generalizing i with
  | nil => intro w h; simp [applyShuf] at h
  | cons g gs ih =>
    intro w h
    rcases List.mem_append.mp h with h | h
    · exact ⟨g, List.mem_cons_self g gs, hshuf i g w h⟩
    · rcases ih (i + 1) w h with ⟨g', hg', hw⟩
      exact ⟨g', List.mem_cons_of_mem g hg', hw⟩

lemma mkEngine_words_length (word_list : List Word) (gridSize : Nat)
    (shuf : Nat → List Word → List Word)
    (hshuf : ∀ i g, (shuf i g).length = g.length) :
    (mkEngine word_list gridSize shuf).words.length = word_list.length := by
  show (shuffle_same_length_groups shuf (sortDescLen word_list)).length = _
  unfold shuffle_same_length_groups spanEq
  rw [applyShuf_length shuf hshuf, spanEqAux_sum _ _ (le_refl _), sortDescLen,
    sortStable_length]

lemma mkEngine_words_mem (word_list : List Word) (gridSize : Nat)
    (shuf : Nat → List Word → List Word)
    (hshuf : ∀ i g w, w ∈ shuf i g → w ∈ g) :
    ∀ w ∈ (mkEngine word_list gridSize shuf).words, w ∈ word_list := by
  intro w hw
  rcases applyShuf_mem shuf hshuf 0 _ w hw with ⟨g, hg, hwg⟩
  exact sortStable_mem _ w _ (spanEqAux_mem _ _ g w hg hwg)

/-! ### Placement count on success -/

lemma tryCands_success_count (w : Word)
    (next : SearchState → Nat → Bool × SearchState × Nat) (m : Nat)
    (hnext : ∀ s k, (next s k).1 = true →
      ((next s k).2.1).placed.length = s.placed.length + m) :
    ∀ (cands : List Cand) (s : SearchState) (k : Nat),
      (tryCands w next cands s k).1 = true →
        ((tryCands w next cands s k).2.1).placed.length = s.placed.length + (m + 1) := by
  intro cands
  induction cands with
  | nil =>
    intro s k h
    simp only [tryCands] at h
    exact absurd h Bool.false_ne_true
  | cons c rest ih =>
    intro s k h
    simp only [tryCands] at h ⊢
    by_cases hb : (next (place_word s w c.1 c.2.1 c.2.2.1) k).1 = true
    · rw [if_pos hb]
      have h1 := hnext _ _ hb
      have h2 : (place_word s w c.1 c.2.1 c.2.2.1).placed.length = s.placed.length + 1 := by
        simp [place_word]
      omega
    · rw [if_neg hb] at h ⊢
      exact ih s _ h

lemma solveAux_success_count (E : Engine) (clock : Nat → Nat)
    (rank : Nat → List Cand → List Cand) :
    ∀ (fuel index : Nat) (s : SearchState) (k : Nat),
      (solveAux E clock rank fuel index s k).1 = true →
        ((solveAux E clock rank fuel index s k).2.1).placed.length =
          s.placed.length + (E.words.length - index) := by
  intro fuel
  induction fuel with
  | zero =>
    intro index s k h
    unfold solveAux at h ⊢
    by_cases h1 : E.timeout < clock k
    · rw [if_pos h1] at h
      exact absurd h Bool.false_ne_true
    · rw [if_neg h1] at h ⊢
      by_cases h2 : E.words.length ≤ index
      · rw [if_pos h2] at h ⊢
        show s.placed.length = s.placed.length + (E.words.length - index)
        omega
      · rw [if_neg h2] at h
        exact absurd h Bool.false_ne_true
  | succ fuel ih =>
    intro index s k h
    unfold solveAux at h ⊢
    by_cases h1 : E.timeout < clock k
    · rw [if_pos h1] at h
      exact absurd h Bool.false_ne_true
    · rw [if_neg h1] at h ⊢
      by_cases h2 : E.words.length ≤ index
      · rw [if_pos h2] at h ⊢
        show s.placed.length = s.placed.length + (E.words.length - index)
        omega
      · rw [if_neg h2] at h ⊢
        have := tryCands_success_count (E.words.getD index [])
          (fun s' k' => solveAux E clock rank fuel (index + 1) s' k')
          (E.words.length - (index + 1))
          (fun s' k' h' => ih (index + 1) s' k' h') _ s _ h
        rw [this]
        omega

/-- **C7.** Whenever `generate_puzzle` returns `true` on a freshly
constructed engine, the final placement log has exactly one entry per
input word: its length equals the input word list's length.  (The
`random.shuffle` oracle permutes in place, so it preserves lengths.) -/
theorem generate_puzzle_success_count (word_list : List Word) (gridSize : Nat)
    (shuf : Nat → List Word → List Word) (clock : Nat → Nat)
    (rank : Nat → List Cand → List Cand)
    (hshuf : ∀ i g, (shuf i g).length = g.length)
    (h : (generate_puzzle (mkEngine word_list gridSize shuf) clock rank initState).1 = true) :
    ((generate_puzzle (mkEngine word_list gridSize shuf) clock rank
      initState).2.1).placed.length = word_list.length := by
  have hlen := mkEngine_words_length word_list gridSize shuf hshuf
  unfold generate_puzzle backtrack_solve at h ⊢
  have hc := solveAux_success_count (mkEngine word_list gridSize shuf) clock rank
    ((mkEngine word_list gridSize shuf).words.length - 0) 0 initState 0 h
  rw [hc]
  show 0 + ((mkEngine word_list gridSize shuf).words.length - 0) = word_list.length
  omega

/-- Concrete instance discharging the hypotheses of
`generate_puzzle_success_count`. -/
theorem generate_puzzle_success_count_witness :
    ((∀ i g, ((fun (_ : Nat) (g : List Word) => g) i g).length = g.length) ∧
      (generate_puzzle (mkEngine [['A']] 1 (fun _ g => g)) (fun _ => 0) (fun _ l => l)
        initState).1 = true) ∧
    ((generate_puzzle (mkEngine [['A']] 1 (fun _ g => g)) (fun _ => 0) (fun _ l => l)
      initState).2.1).placed.length = [['A']].length :=
  ⟨⟨fun _ _ => rfl, by decide⟩,
    generate_puzzle_success_count [['A']] 1 (fun _ g => g) (fun _ => 0) (fun _ l => l)
      (fun _ _ => rfl) (by decide)⟩

/-! ### Uppercase invariant -/

lemma writeWord_grid_cases : ∀ (w : Word) (g : Grid) (row col : Nat) (d : Dir) (r' c' : Nat),
    writeWord g w row col d r' c' = g r' c' ∨ writeWord g w row col d r' c' ∈ w := by
  intro w
  induction w with
  | nil => intro g row col d r' c'; exact Or.inl rfl
  | cons ch rest ih =>
    intro g row col d r' c'
    cases d with
    | across =>
      rcases ih (setCell g row col ch) row (col + 1) .across r' c' with h | h
      · by_cases hc : r' = row ∧ c' = col
        · refine Or.inr ?_
          show writeWord (setCell g row col ch) rest row (col + 1) .across r' c' ∈ ch :: rest
          have hv : writeWord (setCell g row col ch) rest row (col + 1) .across r' c' = ch := by
            rw [h]; simp [setCell, hc]
          rw [hv]
          exact List.mem_cons_self ch rest
        · refine Or.inl ?_
          show writeWord (setCell g row col ch) rest row (col + 1) .across r' c' = g r' c'
          rw [h]; simp [setCell, hc]
      · exact Or.inr (List.mem_cons_of_mem ch h)
    | down =>
      rcases ih (setCell g row col ch) (row + 1) col .down r' c' with h | h
      · by_cases hc : r' = row ∧ c' = col
        · refine Or.inr ?_
          show writeWord (setCell g row col ch) rest (row + 1) col .down r' c' ∈ ch :: rest
          have hv : writeWord (setCell g row col ch) rest (row + 1) col .down r' c' = ch := by
            rw [h]; simp [setCell, hc]
          rw [hv]
          exact List.mem_cons_self ch rest
        · refine Or.inl ?_
          show writeWord (setCell g row col ch) rest (row + 1) col .down r' c' = g r' c'
          rw [h]; simp [setCell, hc]
      · exact Or.inr (List.mem_cons_of_mem ch h)

lemma place_word_upper (s : SearchState) (w : Word) (r c : Nat) (d : Dir)
    (hW : ∀ ch ∈ w, isAsciiLetter ch) (hs : UpperState s) :
    UpperState (place_word s w r c d) := by
  constructor
  · intro p hp
    rcases List.mem_append.mp hp with h | h
    · exact hs.1 p h
    · have hp' : p = (w.map Char.toUpper, r, c, d) := by simpa using h
      subst hp'
      intro ch hch
      rcases List.mem_map.mp hch with ⟨a, ha, rfl⟩
      exact toUpper_of_letter (hW a ha)
  · intro r' c' hne
    show 'A' ≤ writeWord s.grid (w.map Char.toUpper) r c d r' c' ∧
      writeWord s.grid (w.map Char.toUpper) r c d r' c' ≤ 'Z'
    have hne' : writeWord s.grid (w.map Char.toUpper) r c d r' c' ≠ ' ' := hne
    rcases writeWord_grid_cases (w.map Char.toUpper) s.grid r c d r' c' with h | h
    · rw [h] at hne' ⊢
      exact hs.2 r' c' hne'
    · rcases List.mem_map.mp h with ⟨a, ha, hv⟩
      rw [← hv]
      exact toUpper_of_letter (hW a ha)

/-- **C10.** `place_word` uppercases its argument before recording the
placement and before writing letters: every recorded tuple stores the
fully uppercased word, and starting from a fresh engine built from any
(possibly lowercase) letters-only word list, the final state's recorded
words and non-empty grid cells are all uppercase. -/
theorem place_word_uppercase (word_list : List Word) (gridSize : Nat)
    (shuf : Nat → List Word → List Word) (clock : Nat → Nat)
    (rank : Nat → List Cand → List Cand)
    (halpha : ∀ w ∈ word_list, ∀ ch ∈ w, isAsciiLetter ch)
    (hshuf : ∀ i g w, w ∈ shuf i g → w ∈ g) :
    (∀ (s : SearchState) (w : Word) (r c : Nat) (d : Dir),
      (place_word s w r c d).placed = s.placed ++ [(w.map Char.toUpper, r, c, d)]) ∧
    UpperState ((generate_puzzle (mkEngine word_list gridSize shuf) clock rank
      initState).2.1) := by
  constructor
  · exact fun s w r c d => rfl
  · have hinit : UpperState initState :=
      ⟨fun p hp => absurd hp (List.not_mem_nil p), fun r c h => absurd rfl h⟩
    exact solveAux_preserves (mkEngine word_list gridSize shuf) clock rank UpperState
      (fun s i r c d hi hP => by
        have hmem : (mkEngine word_list gridSize shuf).words.getD i [] ∈
            (mkEngine word_list gridSize shuf).words := by
          rw [List.getD_eq_getElem _ _ hi]
          exact List.getElem_mem hi
        have hW := halpha _ (mkEngine_words_mem word_list gridSize shuf hshuf _ hmem)
        exact place_word_upper s _ r c d hW hP)
      _ 0 initState 0 hinit

/-- Concrete instance discharging the hypotheses of
`place_word_uppercase`: a lowercase input word. -/
theorem place_word_uppercase_witness :
    ((∀ w ∈ ([['a']] : List Word), ∀ ch ∈ w, isAsciiLetter ch) ∧ True) ∧
    ((∀ (s : SearchState) (w : Word) (r c : Nat) (d : Dir),
      (place_word s w r c d).placed = s.placed ++ [(w.map Char.toUpper, r, c, d)]) ∧
    UpperState ((generate_puzzle (mkEngine [['a']] 1 (fun _ g => g)) (fun _ => 0)
      (fun _ l => l) initState).2.1)) :=
  ⟨⟨by decide, trivial⟩,
    place_word_uppercase [['a']] 1 (fun _ g => g) (fun _ => 0) (fun _ l => l)
      (by decide) (fun _ _ _ h => h)⟩

/-! ### Out-of-range starts (C6) -/

/-- **C6, counterexample.**  With the Python semantics of list indexing
(negative indices wrap), placing `"CAT"` across at `(0, -5)` on an empty
5-grid covers cells with negative column indices — outside `[0, N)` — yet
the validator returns `True`, because `col + len(word) > grid_size` does
not reject negative starts and every wrapped read finds an empty cell.
This refutes the claim that any covered cell outside `[0, N)` forces a
`false` result for arbitrary integer starts. -/
theorem can_place_word_negative_start :
    can_place_word_gen 5 (pyGet 5 emptyGrid) [] ['C', 'A', 'T'] 0 (-5) .across = some true ∧
    (cellOfI 0 (-5) .across 0).2 < 0 :=
  ⟨by decide, by decide⟩

lemma strictGet_eq (N : Nat) (g : Grid) (r c : Nat) (hr : r < N) (hc : c < N) :
    strictGet N g (r : Int) (c : Int) = some (g r c) := by
  unfold strictGet
  rw [if_pos (by omega)]
  simp

lemma scanBackG_eq (lineG : Int → Option Char) (line : Nat → Char) (N : Nat)
    (hline : ∀ k : Nat, k < N → lineG (k : Int) = some (line k)) :
    ∀ (fuel p : Nat), p ≤ N → (p : Int) ≤ (fuel : Int) →
      scanBackG lineG fuel ((p : Int) - 1) = some (scanBack line p) := by
  intro fuel
  induction fuel with
  | zero =>
    intro p hpN hpf
    have hp0 : p = 0 := by omega
    subst hp0
    simp [scanBackG, scanBack]
  | succ fuel ih =>
    intro p hpN hpf
    cases p with
    | zero => simp [scanBackG, scanBack]
    | succ q =>
      have hcast : ((q + 1 : Nat) : Int) - 1 = (q : Int) := by push_cast; omega
      rw [hcast]
      show scanBackG lineG (fuel + 1) (q : Int) = _
      unfold scanBackG
      rw [if_pos (by omega : (0 : Int) ≤ (q : Int)), hline q (by omega)]
      by_cases hq : line q = ' '
      · simp only [hq, ne_eq, not_true_eq_false, if_false]
        show _ = some (scanBack line (q + 1))
        simp [scanBack, hq]
      · simp only [hq, ne_eq, not_false_eq_true, if_true]
        have hq' : (q : Int) - 1 = ((q : Nat) : Int) - 1 := rfl
        rw [ih q (by omega) (by omega)]
        show some (scanBack line q ++ [line q]) = some (scanBack line (q + 1))
        simp [scanBack, hq]

lemma scanFwdG_eq (lineG : Int → Option Char) (line : Nat → Char) (N : Nat)
    (hline : ∀ k : Nat, k < N → lineG (k : Int) = some (line k)) :
    ∀ (fuel r : Nat), N ≤ r + fuel →
      scanFwdG lineG N fuel (r : Int) = some (scanFwd line r (N - r)) := by
  intro fuel
  induction fuel with
  | zero =>
    intro r hfr
    have hNr : N - r = 0 := by omega
    unfold scanFwdG
    rw [if_neg (by omega : ¬((r : Int) < (N : Int))), hNr]
    rfl
  | succ fuel ih =>
    intro r hfr
    by_cases hr : r < N
    · unfold scanFwdG
      rw [if_pos (by omega : (r : Int) < (N : Int)), hline r hr]
      have hNr : N - r = (N - (r + 1)) + 1 := by omega
      by_cases hsp : line r = ' '
      · simp only [hsp, ne_eq, not_true_eq_false, if_false]
        rw [hNr]
        show _ = some (scanFwd line r ((N - (r + 1)) + 1))
        simp [scanFwd, hsp]
      · simp only [hsp, ne_eq, not_false_eq_true, if_true]
        have hcast : (r : Int) + 1 = ((r + 1 : Nat) : Int) := by push_cast; omega
        rw [hcast, ih (r + 1) (by omega)]
        rw [hNr]
        show some (line r :: scanFwd line (r + 1) (N - (r + 1))) =
          some (scanFwd line r ((N - (r + 1)) + 1))
        simp [scanFwd, hsp]
    · unfold scanFwdG
      rw [if_neg (by omega : ¬((r : Int) < (N : Int)))]
      rw [show N - r = 0 by omega]
      rfl

lemma build_perpendicular_word_gen_strict (N : Nat) (g : Grid) (row col : Nat) (dir : Dir)
    (hr : row < N) (hc : col < N) :
    build_perpendicular_word_gen N (strictGet N g) (row : Int) (col : Int) dir =
      some (build_perpendicular_word N g row col dir) := by
  cases dir
  · have hline : ∀ k : Nat, k < N → strictGet N g (k : Int) (col : Int) = some (g k col) :=
      fun k hk => strictGet_eq N g k col hk hc
    have hup := scanBackG_eq (fun r => strictGet N g r (col : Int)) (fun r => g r col) N
      hline (scanBackFuel (row : Int)) row hr.le
      (by simp only [scanBackFuel]; omega)
    have hdn := scanFwdG_eq (fun r => strictGet N g r (col : Int)) (fun r => g r col) N
      hline (scanFwdFuel N (row : Int)) (row + 1) (by simp only [scanFwdFuel]; omega)
    show (do
      let up ← scanBackG (fun r => strictGet N g r (col : Int)) (scanBackFuel (row : Int))
        ((row : Int) - 1)
      let down ← scanFwdG (fun r => strictGet N g r (col : Int)) N
        (scanFwdFuel N (row : Int)) ((row : Int) + 1)
      pure (up ++ ['?'] ++ down) : Option (List Char)) = _
    rw [show ((row : Int) + 1) = ((row + 1 : Nat) : Int) by push_cast; omega] at *
    rw [hup, hdn]
    show some (scanBack (fun r => g r col) row ++ ['?'] ++
      scanFwd (fun r => g r col) (row + 1) (N - (row + 1))) = _
    rfl
  · have hline : ∀ k : Nat, k < N → strictGet N g (row : Int) (k : Int) = some (g row k) :=
      fun k hk => strictGet_eq N g row k hr hk
    have hup := scanBackG_eq (fun c => strictGet N g (row : Int) c) (fun c => g row c) N
      hline (scanBackFuel (col : Int)) col hc.le
      (by simp only [scanBackFuel]; omega)
    have hdn := scanFwdG_eq (fun c => strictGet N g (row : Int) c) (fun c => g row c) N
      hline (scanFwdFuel N (col : Int)) (col + 1) (by simp only [scanFwdFuel]; omega)
    show (do
      let left ← scanBackG (fun c => strictGet N g (row : Int) c) (scanBackFuel (col : Int))
        ((col : Int) - 1)
      let right ← scanFwdG (fun c => strictGet N g (row : Int) c) N
        (scanFwdFuel N (col : Int)) ((col : Int) + 1)
      pure (left ++ ['?'] ++ right) : Option (List Char)) = _
    rw [show ((col : Int) + 1) = ((col + 1 : Nat) : Int) by push_cast; omega] at *
    rw [hup, hdn]
    show some (scanBack (fun c => g row c) col ++ ['?'] ++
      scanFwd (fun c => g row c) (col + 1) (N - (col + 1))) = _
    rfl

lemma checkCellsGen_strict (N : Nat) (g : Grid) (dict : List Word) (row col : Nat)
    (dir : Dir) :
    ∀ L : List (Nat × Char),
      (∀ p ∈ L, (cellOf row col dir p.1).1 < N ∧ (cellOf row col dir p.1).2 < N) →
      checkCellsGen N (strictGet N g) dict (row : Int) (col : Int) dir L =
        some (L.all fun p => cellCheck N g dict row col dir p.1 p.2) := by
  intro L
  induction L with
  | nil => intro _; rfl
  | cons p rest ih =>
    rcases p with ⟨i, ch⟩
    intro hb
    have hbi := hb (i, ch) (List.mem_cons_self _ _)
    have hcell : cellOfI (row : Int) (col : Int) dir i =
        (((cellOf row col dir i).1 : Int), ((cellOf row col dir i).2 : Int)) := by
      cases dir <;> simp [cellOfI, cellOf]
    have hget : strictGet N g (cellOfI (row : Int) (col : Int) dir i).1
        (cellOfI (row : Int) (col : Int) dir i).2 =
        some (g (cellOf row col dir i).1 (cellOf row col dir i).2) := by
      rw [hcell]
      exact strictGet_eq N g _ _ hbi.1 hbi.2
    simp only [checkCellsGen, List.all_cons, hget, Option.bind_eq_bind, Option.some_bind]
    set cur := g (cellOf row col dir i).1 (cellOf row col dir i).2 with hcur
    by_cases h1 : cur ≠ ' ' ∧ cur ≠ ch
    · rw [if_pos h1]
      have hcc : cellCheck N g dict row col dir i ch = false := by
        simp only [cellCheck, ← hcur]
        rw [if_pos h1.1]
        simpa using h1.2
      rw [hcc]
      rfl
    · rw [if_neg h1]
      by_cases h2 : cur = ' '
      · rw [if_pos h2]
        have hperp : build_perpendicular_word_gen N (strictGet N g)
            (cellOfI (row : Int) (col : Int) dir i).1
            (cellOfI (row : Int) (col : Int) dir i).2 dir =
            some (build_perpendicular_word N g (cellOf row col dir i).1
              (cellOf row col dir i).2 dir) := by
          rw [hcell]
          exact build_perpendicular_word_gen_strict N g _ _ dir hbi.1 hbi.2
        simp only [hperp, Option.bind_eq_bind, Option.some_bind]
        set pw := (build_perpendicular_word N g (cellOf row col dir i).1
          (cellOf row col dir i).2 dir).map (fun x => if x = '?' then ch else x) with hpw
        by_cases h3 : pw.length > 1 ∧ ¬dictContains dict pw = true
        · rw [if_pos h3]
          have hcc : cellCheck N g dict row col dir i ch = false := by
            simp only [cellCheck, ← hcur, ← hpw]
            rw [if_neg (by simpa using h2)]
            simp only [Bool.or_eq_false_iff, decide_eq_false_iff_not]
            constructor
            · omega
            · simpa using h3.2
          rw [hcc]
          rfl
        · rw [if_neg h3]
          have hcc : cellCheck N g dict row col dir i ch = true := by
            simp only [cellCheck, ← hcur, ← hpw]
            rw [if_neg (by simpa using h2)]
            rcases Decidable.not_and_iff_or_not.mp h3 with h | h
            · simp only [Bool.or_eq_true, decide_eq_true_iff]
              exact Or.inl (by omega)
            · simp only [Bool.or_eq_true]
              exact Or.inr (by simpa using h)
          rw [hcc, Bool.true_and]
          exact ih fun q hq => hb q (List.mem_cons_of_mem _ hq)
      · rw [if_neg h2]
        have hch : cur = ch := by tauto
        have hcc : cellCheck N g dict row col dir i ch = true := by
          simp only [cellCheck, ← hcur]
          rw [if_pos (by simpa using h2)]
          simpa using hch
        rw [hcc, Bool.true_and]
        exact ih fun q hq => hb q (List.mem_cons_of_mem _ hq)

lemma boundaryGen_strict (N : Nat) (g : Grid) (row col : Nat) (len : Nat) (dir : Dir)
    (hr : row < N) (hc : col < N) :
    boundaryGen N (strictGet N g) (row : Int) (col : Int) len dir =
      some (boundaryOk N g row col len dir) := by
  cases dir
  · simp only [boundaryGen, boundaryOk]
    by_cases h0 : 0 < col
    · rw [if_pos (by omega : (0 : Int) < (col : Int))]
      rw [show ((col : Int) - 1) = ((col - 1 : Nat) : Int) by omega]
      rw [strictGet_eq N g row (col - 1) hr (by omega)]
      simp only [Option.bind_eq_bind, Option.some_bind, Option.pure_def]
      rw [show decide (col = 0) = false by simp; omega, Bool.false_or]
      by_cases hL : g row (col - 1) = ' '
      · rw [if_neg (by simp [hL] : ¬(decide (g row (col - 1) = ' ') = false))]
        rw [show decide (g row (col - 1) = ' ') = true by simp [hL], Bool.true_and]
        by_cases hR : col + len < N
        · rw [if_pos (by omega : (col : Int) + (len : Int) < (N : Int))]
          rw [show ((col : Int) + (len : Int)) = ((col + len : Nat) : Int) by omega]
          rw [strictGet_eq N g row (col + len) hr hR]
          simp only [Option.bind_eq_bind, Option.some_bind, Option.pure_def]
          rw [show decide (N ≤ col + len) = false by simp; omega, Bool.false_or]
        · rw [if_neg (by omega : ¬((col : Int) + (len : Int) < (N : Int)))]
          rw [show decide (N ≤ col + len) = true by simp; omega, Bool.true_or]
      · rw [if_pos (by simp [hL] : decide (g row (col - 1) = ' ') = false)]
        rw [show decide (g row (col - 1) = ' ') = false by simp [hL], Bool.false_and]
    · rw [if_neg (by omega : ¬((0 : Int) < (col : Int)))]
      simp only [Option.bind_eq_bind, Option.some_bind, Option.pure_def]
      rw [if_neg (by simp : ¬((true : Bool) = false))]
      rw [show decide (col = 0) = true by simp; omega, Bool.true_or, Bool.true_and]
      by_cases hR : col + len < N
      · rw [if_pos (by omega : (col : Int) + (len : Int) < (N : Int))]
        rw [show ((col : Int) + (len : Int)) = ((col + len : Nat) : Int) by omega]
        rw [strictGet_eq N g row (col + len) hr hR]
        simp only [Option.bind_eq_bind, Option.some_bind, Option.pure_def]
        rw [show decide (N ≤ col + len) = false by simp; omega, Bool.false_or]
      · rw [if_neg (by omega : ¬((col : Int) + (len : Int) < (N : Int)))]
        rw [show decide (N ≤ col + len) = true by simp; omega, Bool.true_or]
  · simp only [boundaryGen, boundaryOk]
    by_cases h0 : 0 < row
    · rw [if_pos (by omega : (0 : Int) < (row : Int))]
      rw [show ((row : Int) - 1) = ((row - 1 : Nat) : Int) by omega]
      rw [strictGet_eq N g (row - 1) col (by omega) hc]
      simp only [Option.bind_eq_bind, Option.some_bind, Option.pure_def]
      rw [show decide (row = 0) = false by simp; omega, Bool.false_or]
      by_cases hL : g (row - 1) col = ' '
      · rw [if_neg (by simp [hL] : ¬(decide (g (row - 1) col = ' ') = false))]
        rw [show decide (g (row - 1) col = ' ') = true by simp [hL], Bool.true_and]
        by_cases hR : row + len < N
        · rw [if_pos (by omega : (row : Int) + (len : Int) < (N : Int))]
          rw [show ((row : Int) + (len : Int)) = ((row + len : Nat) : Int) by omega]
          rw [strictGet_eq N g (row + len) col hR hc]
          simp only [Option.bind_eq_bind, Option.some_bind, Option.pure_def]
          rw [show decide (N ≤ row + len) = false by simp; omega, Bool.false_or]
        · rw [if_neg (by omega : ¬((row : Int) + (len : Int) < (N : Int)))]
          rw [show decide (N ≤ row + len) = true by simp; omega, Bool.true_or]
      · rw [if_pos (by simp [hL] : decide (g (row - 1) col = ' ') = false)]
        rw [show decide (g (row - 1) col = ' ') = false by simp [hL], Bool.false_and]
    · rw [if_neg (by omega : ¬((0 : Int) < (row : Int)))]
      simp only [Option.bind_eq_bind, Option.some_bind, Option.pure_def]
      rw [if_neg (by simp : ¬((true : Bool) = false))]
      rw [show decide (row = 0) = true by simp; omega, Bool.true_or, Bool.true_and]
      by_cases hR : row + len < N
      · rw [if_pos (by omega : (row : Int) + (len : Int) < (N : Int))]
        rw [show ((row : Int) + (len : Int)) = ((row + len : Nat) : Int) by omega]
        rw [strictGet_eq N g (row + len) col hR hc]
        simp only [Option.bind_eq_bind, Option.some_bind, Option.pure_def]
        rw [show decide (N ≤ row + len) = false by simp; omega, Bool.false_or]
      · rw [if_neg (by omega : ¬((row : Int) + (len : Int) < (N : Int)))]
        rw [show decide (N ≤ row + len) = true by simp; omega, Bool.true_or]

lemma enumFrom_all_iff (f : Nat → Char → Bool) :
    ∀ (w : Word) (n : Nat), ((List.enumFrom n w).all fun p => f p.1 p.2) = true ↔
      ∀ i < w.length, f (n + i) (w.getD i ' ') = true := by
  intro w
  induction w with
  | nil => intro n; simp
  | cons x xs ih =>
    intro n
    simp only [List.enumFrom, List.all_cons, Bool.and_eq_true]
    rw [ih (n + 1)]
    constructor
    · rintro ⟨h0, hrec⟩ i hi
      cases i with
      | zero => simpa using h0
      | succ j =>
        have := hrec j (by simpa using hi)
        rw [show n + (j + 1) = n + 1 + j by omega]
        simpa using this
    · intro h
      constructor
      · have := h 0 (by simp)
        simpa using this
      · intro i hi
        have := h (i + 1) (by simpa using hi)
        rw [show n + 1 + i = n + (i + 1) by omega]
        simpa using this

lemma enum_all_eq_range_all (w : Word) (f : Nat → Char → Bool) :
    (w.enum.all fun p => f p.1 p.2) = ((List.range w.length).all fun i => f i (w.getD i ' ')) := by
  rw [Bool.eq_iff_iff]
  rw [show w.enum = List.enumFrom 0 w from rfl, enumFrom_all_iff, List.all_eq_true]
  constructor
  · intro h i hi
    have := h i (List.mem_range.mp hi)
    simpa using this
  · intro h i hi
    have := h i (List.mem_range.mpr hi)
    simpa using this

lemma can_place_word_gen_strict (N : Nat) (g : Grid) (dict : List Word) (word : Word)
    (row col : Nat) (dir : Dir) (hr : row < N) (hc : col < N) :
    can_place_word_gen N (strictGet N g) dict word (row : Int) (col : Int) dir =
      some (can_place_word_scrabble N g dict word row col dir) := by
  cases dir
  · simp only [can_place_word_gen, can_place_word_scrabble]
    by_cases hf : col + (word.map Char.toUpper).length ≤ N
    · rw [if_neg (by simp only [decide_eq_false_iff_not, Decidable.not_not]; omega)]
      rw [checkCellsGen_strict N g dict row col .across (word.map Char.toUpper).enum
        (fun p hp => by
          rcases p with ⟨i, ch⟩
          have := List.mem_enum hp
          simp only [cellOf]
          exact ⟨hr, by omega⟩)]
      rw [enum_all_eq_range_all (word.map Char.toUpper)
        (fun i ch => cellCheck N g dict row col .across i ch)]
      simp only [Option.bind_eq_bind, Option.some_bind]
      rw [show decide (col + (word.map Char.toUpper).length ≤ N) = true by simpa using hf,
        Bool.true_and]
      by_cases hall : ((List.range (word.map Char.toUpper).length).all fun i =>
          cellCheck N g dict row col .across i ((word.map Char.toUpper).getD i ' ')) = false
      · rw [if_pos hall, hall, Bool.false_and]
        rfl
      · rw [if_neg hall]
        rw [show ((List.range (word.map Char.toUpper).length).all fun i =>
            cellCheck N g dict row col .across i ((word.map Char.toUpper).getD i ' ')) = true
          from by simpa using hall, Bool.true_and]
        exact boundaryGen_strict N g row col (word.map Char.toUpper).length .across hr hc
    · rw [if_pos (by simp only [decide_eq_false_iff_not]; omega)]
      rw [show decide (col + (word.map Char.toUpper).length ≤ N) = false by simpa using hf,
        Bool.false_and, Bool.false_and]
  · simp only [can_place_word_gen, can_place_word_scrabble]
    by_cases hf : row + (word.map Char.toUpper).length ≤ N
    · rw [if_neg (by simp only [decide_eq_false_iff_not, Decidable.not_not]; omega)]
      rw [checkCellsGen_strict N g dict row col .down (word.map Char.toUpper).enum
        (fun p hp => by
          rcases p with ⟨i, ch⟩
          have := List.mem_enum hp
          simp only [cellOf]
          exact ⟨by omega, hc⟩)]
      rw [enum_all_eq_range_all (word.map Char.toUpper)
        (fun i ch => cellCheck N g dict row col .down i ch)]
      simp only [Option.bind_eq_bind, Option.some_bind]
      rw [show decide (row + (word.map Char.toUpper).length ≤ N) = true by simpa using hf,
        Bool.true_and]
      by_cases hall : ((List.range (word.map Char.toUpper).length).all fun i =>
          cellCheck N g dict row col .down i ((word.map Char.toUpper).getD i ' ')) = false
      · rw [if_pos hall, hall, Bool.false_and]
        rfl
      · rw [if_neg hall]
        rw [show ((List.range (word.map Char.toUpper).length).all fun i =>
            cellCheck N g dict row col .down i ((word.map Char.toUpper).getD i ' ')) = true
          from by simpa using hall, Bool.true_and]
        exact boundaryGen_strict N g row col (word.map Char.toUpper).length .down hr hc
    · rw [if_pos (by simp only [decide_eq_false_iff_not]; omega)]
      rw [show decide (row + (word.map Char.toUpper).length ≤ N) = false by simpa using hf,
        Bool.false_and, Bool.false_and]

/-- **C6, amended.** For start coordinates inside `[0, N)` (negative or
otherwise out-of-range starts are excluded — the counterexample
`can_place_word_negative_start` shows Python's wrapping then returns
`True`): if any covered cell lies outside `[0, N)` the validator returns
`false`, and under the access model that only answers for cells inside
`[0, N)` the validation still returns a value — it never reads a board
cell outside `[0, N)` — and agrees with the total validator. -/
theorem can_place_word_scrabble_bounds (N : Nat) (g : Grid) (dict : List Word)
    (word : Word) (row col : Nat) (dir : Dir) (hr : row < N) (hc : col < N) :
    can_place_word_gen N (strictGet N g) dict word (row : Int) (col : Int) dir =
      some (can_place_word_scrabble N g dict word row col dir) ∧
    ((∃ i < (word.map Char.toUpper).length,
        ¬((cellOf row col dir i).1 < N ∧ (cellOf row col dir i).2 < N)) →
      can_place_word_scrabble N g dict word row col dir = false) := by
  refine ⟨can_place_word_gen_strict N g dict word row col dir hr hc, ?_⟩
  rintro ⟨i, hi, hout⟩
  cases dir
  · have hof : ¬(col + (word.map Char.toUpper).length ≤ N) := by
      simp only [cellOf] at hout
      omega
    simp only [can_place_word_scrabble]
    rw [show decide (col + (word.map Char.toUpper).length ≤ N) = false by simpa using hof,
      Bool.false_and, Bool.false_and]
  · have hof : ¬(row + (word.map Char.toUpper).length ≤ N) := by
      simp only [cellOf] at hout
      omega
    simp only [can_place_word_scrabble]
    rw [show decide (row + (word.map Char.toUpper).length ≤ N) = false by simpa using hof,
      Bool.false_and, Bool.false_and]

/-- Concrete instance discharging the hypotheses of
`can_place_word_scrabble_bounds`. -/
theorem can_place_word_scrabble_bounds_witness :
    (0 < 3 ∧ 2 < 3) ∧
    (can_place_word_gen 3 (strictGet 3 emptyGrid) [] ['A', 'B']
        ((0 : Nat) : Int) ((2 : Nat) : Int) .across =
      some (can_place_word_scrabble 3 emptyGrid [] ['A', 'B'] 0 2 .across) ∧
    ((∃ i < ((['A', 'B'] : Word).map Char.toUpper).length,
        ¬((cellOf 0 2 .across i).1 < 3 ∧ (cellOf 0 2 .across i).2 < 3)) →
      can_place_word_scrabble 3 emptyGrid [] ['A', 'B'] 0 2 .across = false)) :=
  ⟨⟨by decide, by decide⟩,
    can_place_word_scrabble_bounds 3 emptyGrid [] ['A', 'B'] 0 2 .across
      (by decide) (by decide)⟩

/-! ### The center-distance tie-break prefers *farther* candidates (C9) -/

/-- **C9 (code bug).**  The claim — and the code's own comment, "then by
distance to center (closer is better)" — say that among candidates with
equal intersection counts the ordering prefers the candidate closer to the
board center.  The code stores `-distance_to_center` as `x[4]` and sorts
ascending on it, which puts the *most negative* value — the *largest*
distance — first.  Concretely: for the word `"AB"` on an empty 4-board
with nothing placed (connectivity trivially passes, all intersection
counts are 0), `find_best_placement` returns `(0, 0, across)`, a candidate
at center distance 3, although the candidate `(2, 1, across)` also passes
the validator and the connectivity rule, has the same intersection count,
and lies at center distance 0. -/
theorem find_best_placement_prefers_far :
    find_best_placement 4 emptyGrid [] [] (fun _ => 0) ['A', 'B'] =
        some (0, 0, .across) ∧
    manhattan_center_distance 4 2 0 0 .across = 3 ∧
    can_place_word_scrabble 4 emptyGrid [] ['A', 'B'] 2 1 .across = true ∧
    has_connection_to_existing 4 emptyGrid [] ['A', 'B'] 2 1 .across = true ∧
    intersections emptyGrid ['A', 'B'] 2 1 .across =
      intersections emptyGrid ['A', 'B'] 0 0 .across ∧
    manhattan_center_distance 4 2 2 1 .across = 0 :=
  ⟨by decide, by decide, by decide, by decide, by decide, by decide⟩

end Scrabble
